import Mathlib

/-!
# Verification of the deep-research orchestration core

A shallow embedding, in Lean 4, of the algorithmic core of the
`deep-research` repository:

* `trimPrompt` (`src/ai/providers.ts`) — token-budget-aware text trimming;
* `safeGenerate` (`src/run.ts`) — resilient structured-output extraction
  (fenced-JSON location, sanitization, parse, schema validation);
* `generateSerpQueries`, `processSerpResult`, `deepResearch` (`src/run.ts`) —
  the recursive, fault-isolated research orchestrator.

Strings are modelled as `List Char` (`Str`).  External collaborators (the
model-completion service, the web-search service) are oracle functions in an
`Env` record, and the token estimator of `js-tiktoken` is an arbitrary
function `tok : Str → Nat`, since no claim depends on its values.  JavaScript
numbers that the code uses as budgets (`breadth`, `depth`) are modelled as
`Nat`, matching the spec's data model (`integer ≥ 0`); JSON numbers are kept
exact (mantissa/exponent) rather than as IEEE doubles — no claim inspects a
numeric JSON value.  All definitions are executable.
-/

set_option maxRecDepth 10000

namespace DeepResearch

/-- JavaScript strings, modelled as lists of unicode scalar values. -/
abbrev Str := List Char

/-! ## Character classes -/

/-- The characters removed by `safeGenerate`'s control-character regex
`[\u0000-\u001F\u007F]` in `src/run.ts` line 62. -/
def isBadCtrl (c : Char) : Bool := c.val < 0x20 || c.val == 0x7F

/-- JavaScript's regex `\s` class (WhiteSpace plus LineTerminator), used by the
trailing-comma regex `,(\s*[}\]])` and by `String.prototype.trim`. -/
def isJsWs (c : Char) : Bool :=
  c == ' ' || c == '\t' || c == '\n' || c.val == 0x0B || c.val == 0x0C ||
  c == '\r' || c.val == 0xA0 || c.val == 0x1680 ||
  (0x2000 ≤ c.val && c.val ≤ 0x200A) || c.val == 0x2028 || c.val == 0x2029 ||
  c.val == 0x202F || c.val == 0x205F || c.val == 0x3000 || c.val == 0xFEFF

/-- JSON's insignificant whitespace (space, tab, line feed, carriage return),
as accepted between tokens by `JSON.parse`. -/
def isJsonWs (c : Char) : Bool := c == ' ' || c == '\t' || c == '\n' || c == '\r'

/-- A JSON closing delimiter, `}` or `]`. -/
def isCloser (c : Char) : Bool := c == '}' || c == ']'

/-! ## Sanitization (`safeGenerate`, `src/run.ts` lines 61–63) -/

/-- `jsonString.replace(/[\u0000-\u001F\u007F]/g, '')`. -/
def stripControlChars (l : Str) : Str := l.filter (fun c => !isBadCtrl c)

/-- Splits off a leading run of `\s` characters followed by a closing `}` or
`]`: the part of the trailing-comma regex after the comma.  Returns the
whitespace run, the closer, and the remainder. -/
def wsCloserSplit : Str → Option (Str × Char × Str)
  | [] => none
  | c :: rest =>
    if isCloser c then some ([], c, rest)
    else if isJsWs c then
      (wsCloserSplit rest).map (fun p => (c :: p.1, p.2.1, p.2.2))
    else none

/-- `jsonString.replace(/,(\s*[}\]])/g, '$1')`: a left-to-right pass that
deletes each comma standing (up to `\s`-whitespace) before a closing brace or
bracket.  A global JavaScript regex replacement resumes scanning after the
matched closer; rescanning the skipped `\s*`-plus-closer region instead is
equivalent, since that region contains no comma and so can start no match,
and it makes the definition structurally recursive. -/
def stripTrailingCommas : Str → Str
  | [] => []
  | c :: rest =>
    if c = ',' ∧ (wsCloserSplit rest).isSome then stripTrailingCommas rest
    else c :: stripTrailingCommas rest

/-- `String.prototype.trim`: removes leading and trailing JavaScript
whitespace. -/
def jsTrim (l : Str) : Str :=
  ((l.dropWhile isJsWs).reverse.dropWhile isJsWs).reverse

/-! ## Locating the fenced JSON payload (`src/run.ts` lines 54–55)

The source matches `/```json\s*([\s\S]*?)\s*```/i` against the response text
and uses the captured group when it is non-empty, else the trimmed full text.
The match anchors at the first case-insensitive occurrence of the literal
7-character opener; the lazy capture then ends at the first subsequent
occurrence of three backticks, and the two greedy `\s*` runs together with the
source's `.trim()` on the capture reduce to trimming the text between opener
and closer.  When the opener never occurs, or no closer follows the first
opener (no later start can then match either, since every later opener
contains three backticks), or the trimmed capture is empty (an empty capture
is falsy, `src/run.ts` line 55), the source falls back to the trimmed full
response text. -/

/-- Case-insensitive prefix test against an (already lowercase) pattern. -/
def lowerPrefix : Str → Str → Bool
  | [], _ => true
  | _ :: _, [] => false
  | p :: ps, c :: cs => p == c.toLower && lowerPrefix ps cs

/-- The fence opener pattern. -/
def fenceOpen : Str := "```json".data

/-- Three backticks, the fence closer pattern. -/
def fenceClose : Str := "```".data

/-- Drops everything up to and including the first case-insensitive
occurrence of ```` ```json ````; `none` when there is no occurrence. -/
def dropAfterOpen : Str → Option Str
  | [] => none
  | c :: rest =>
    if lowerPrefix fenceOpen (c :: rest) then some ((c :: rest).drop fenceOpen.length)
    else dropAfterOpen rest

/-- Splits at the first occurrence of three backticks: returns the part
before and the part after the closer. -/
def breakAtClose : Str → Option (Str × Str)
  | [] => none
  | c :: rest =>
    if lowerPrefix fenceClose (c :: rest) then some ([], (c :: rest).drop fenceClose.length)
    else (breakAtClose rest).map (fun p => (c :: p.1, p.2))

/-- The candidate JSON text that `safeGenerate` feeds to sanitization:
the trimmed first fenced payload when present and non-empty, else the
trimmed response text (`src/run.ts` lines 54–55). -/
def extractCandidate (text : Str) : Str :=
  match dropAfterOpen text with
  | none => jsTrim text
  | some afterOpen =>
    match breakAtClose afterOpen with
    | none => jsTrim text
    | some (inner, _) =>
      let captured := jsTrim inner
      if captured = [] then jsTrim text else captured

/-! ## `JSON.parse`, shallowly embedded

A total recursive-descent parser over `Str`, structural on a fuel counter so
that every definition is kernel-executable.  `parseJson` supplies
`length + 1` fuel, which the analysis of the grammar shows is never
exhausted on an input `JSON.parse` would accept (every two consecutive
recursive calls consume at least one input character).  JSON numbers are
represented exactly as `mantissa × 10^exponent`; the IEEE-754 rounding that
JavaScript would apply is not modelled, and no claim inspects a number. -/

/-- An exact JSON number, `mantissa × 10^exponent`. -/
structure JsonNum where
  mantissa : Int
  exponent : Int
deriving DecidableEq, Repr

/-- A parsed JSON value.  Object members keep their textual order; duplicate
keys are resolved last-wins at lookup time, as JavaScript does. -/
inductive Json where
  | null
  | bool (b : Bool)
  | num (n : JsonNum)
  | str (s : Str)
  | arr (elems : List Json)
  | obj (members : List (Str × Json))

/-- Skip insignificant JSON whitespace. -/
def skipJsonWs : Str → Str
  | [] => []
  | c :: rest => if isJsonWs c then skipJsonWs rest else c :: rest

/-- Decimal digit test. -/
def isDigitCh (c : Char) : Bool := '0' ≤ c && c ≤ '9'

/-- Value of one hexadecimal digit. -/
def hexDigitVal (c : Char) : Option Nat :=
  let n := c.toNat
  if 48 ≤ n ∧ n ≤ 57 then some (n - 48)
  else if 97 ≤ n ∧ n ≤ 102 then some (n - 87)
  else if 65 ≤ n ∧ n ≤ 70 then some (n - 55)
  else none

/-- Collects a leading run of decimal digits. -/
def takeDigitRun : Str → Str × Str
  | [] => ([], [])
  | c :: rest =>
    if isDigitCh c then
      let p := takeDigitRun rest
      (c :: p.1, p.2)
    else ([], c :: rest)

/-- Natural number denoted by a digit run. -/
def digitRunVal (ds : Str) : Nat :=
  ds.foldl (fun acc c => acc * 10 + (c.toNat - '0'.toNat)) 0

/-- Single-character string escapes accepted by `JSON.parse`. -/
def jsonUnescape : Char → Option Char
  | '"' => some '"'
  | '\\' => some '\\'
  | '/' => some '/'
  | 'b' => some (Char.ofNat 0x08)
  | 'f' => some (Char.ofNat 0x0C)
  | 'n' => some '\n'
  | 'r' => some '\r'
  | 't' => some '\t'
  | _ => none

/-- The value of a `\uXXXX` escape's four hexadecimal digits, if all four are
hexadecimal digits. -/
def hexQuad (a b c d : Char) : Option Nat :=
  match hexDigitVal a, hexDigitVal b, hexDigitVal c, hexDigitVal d with
  | some va, some vb, some vc, some vd =>
    some (((va * 16 + vb) * 16 + vc) * 16 + vd)
  | _, _, _, _ => none

/-- One step of JSON string-body parsing, on the first character `c` with
remainder `rest`; `pS` continues the parse after the consumed character.  Raw
control characters below `U+0020` are rejected, as `JSON.parse` rejects them;
a `\uXXXX` escape yields one UTF-16 code unit, and a high/low surrogate
escape pair is combined into one scalar value. -/
def pStrBody (pS : Str → Option (Str × Str)) (c : Char) (rest : Str) :
    Option (Str × Str) :=
  if c = '"' then some ([], rest)
  else if c = '\\' then
    match rest with
    | 'u' :: a :: b :: c2 :: d :: rest2 =>
      (match hexQuad a b c2 d with
      | none => none
      | some n =>
        if 0xD800 ≤ n ∧ n ≤ 0xDBFF then
          match rest2 with
          | '\\' :: 'u' :: a2 :: b2 :: c3 :: d2 :: rest3 =>
            (match hexQuad a2 b2 c3 d2 with
            | none => none
            | some m =>
              if 0xDC00 ≤ m ∧ m ≤ 0xDFFF then
                (pS rest3).map (fun p =>
                  (Char.ofNat (0x10000 + (n - 0xD800) * 0x400 + (m - 0xDC00)) ::
                    p.1, p.2))
              else none)
          | _ => none
        else (pS rest2).map (fun p => (Char.ofNat n :: p.1, p.2)))
    | e :: rest2 =>
      match jsonUnescape e with
      | some ch => (pS rest2).map (fun p => (ch :: p.1, p.2))
      | none => none
    | [] => none
  else if c.val < 0x20 then none
  else (pS rest).map (fun p => (c :: p.1, p.2))

/-- Parses the body of a JSON string after its opening quote (fuel-bounded;
each parsed character consumes at least one input character, so fuel
`s.length + 1` always suffices and the surrounding parser's fuel is passed
down unchanged). -/
def pStr : Nat → Str → Option (Str × Str)
  | 0, _ => none
  | _ + 1, [] => none
  | fuel + 1, c :: rest => pStrBody (pStr fuel) c rest

/-- Parses a JSON number token per the RFC 8259 grammar
`-?(0|[1-9][0-9]*)(\.[0-9]+)?([eE][+-]?[0-9]+)?`. -/
def pNum : Str → Option (JsonNum × Str)
  | cs =>
    let signed : Bool × Str := match cs with
      | '-' :: r => (true, r)
      | _ => (false, cs)
    match takeDigitRun signed.2 with
    | ([], _) => none
    | (d :: ds, afterInt) =>
      if d = '0' ∧ ds ≠ [] then none
      else
        let intVal : Nat := digitRunVal (d :: ds)
        let fracP : Option (Str × Str) := match afterInt with
          | '.' :: r =>
            match takeDigitRun r with
            | ([], _) => none
            | (fs, r2) => some (fs, r2)
          | _ => some ([], afterInt)
        match fracP with
        | none => none
        | some (fs, afterFrac) =>
          let expP : Option (Int × Str) := match afterFrac with
            | 'e' :: r | 'E' :: r =>
              let esigned : Bool × Str := match r with
                | '+' :: r2 => (false, r2)
                | '-' :: r2 => (true, r2)
                | _ => (false, r)
              match takeDigitRun esigned.2 with
              | ([], _) => none
              | (es, r3) =>
                let e : Int := digitRunVal es
                some (if esigned.1 then -e else e, r3)
            | _ => some (0, afterFrac)
          match expP with
          | none => none
          | some (e, rest) =>
            let mant : Nat := intVal * 10 ^ fs.length + digitRunVal fs
            let m : Int := if signed.1 then -(mant : Int) else (mant : Int)
            some (⟨m, e - fs.length⟩, rest)

mutual

/-- Parses one JSON value, returning it with the unconsumed remainder. -/
def pVal : Nat → Str → Option (Json × Str)
  | 0, _ => none
  | fuel + 1, s =>
    match skipJsonWs s with
    | 'n' :: 'u' :: 'l' :: 'l' :: r => some (.null, r)
    | 't' :: 'r' :: 'u' :: 'e' :: r => some (.bool true, r)
    | 'f' :: 'a' :: 'l' :: 's' :: 'e' :: r => some (.bool false, r)
    | '"' :: r => (pStr fuel r).map (fun p => (.str p.1, p.2))
    | '[' :: r =>
      (match skipJsonWs r with
      | ']' :: r2 => some (.arr [], r2)
      | _ => (pElems fuel r).map (fun p => (.arr p.1, p.2)))
    | '{' :: r =>
      (match skipJsonWs r with
      | '}' :: r2 => some (.obj [], r2)
      | _ => (pMembers fuel r).map (fun p => (.obj p.1, p.2)))
    | r => (pNum r).map (fun p => (.num p.1, p.2))

/-- Parses the comma-separated elements of a non-empty array, consuming the
closing bracket. -/
def pElems : Nat → Str → Option (List Json × Str)
  | 0, _ => none
  | fuel + 1, s =>
    match pVal fuel s with
    | none => none
    | some (v, r) =>
      match skipJsonWs r with
      | ',' :: r2 =>
        (match pElems fuel r2 with
        | some (vs, r3) => some (v :: vs, r3)
        | none => none)
      | ']' :: r2 => some ([v], r2)
      | _ => none

/-- Parses the comma-separated members of a non-empty object, consuming the
closing brace. -/
def pMembers : Nat → Str → Option (List (Str × Json) × Str)
  | 0, _ => none
  | fuel + 1, s =>
    match skipJsonWs s with
    | '"' :: r =>
      (match pStr fuel r with
      | none => none
      | some (k, r1) =>
        match skipJsonWs r1 with
        | ':' :: r2 =>
          (match pVal fuel r2 with
          | none => none
          | some (v, r3) =>
            match skipJsonWs r3 with
            | ',' :: r4 =>
              (match pMembers fuel r4 with
              | some (ms, r5) => some ((k, v) :: ms, r5)
              | none => none)
            | '}' :: r4 => some ([(k, v)], r4)
            | _ => none)
        | _ => none)
    | _ => none

end

/-- `JSON.parse(s)`: parse one value and require only whitespace after it. -/
def parseJson (s : Str) : Option Json :=
  match pVal (s.length + 1) s with
  | some (v, rest) => if skipJsonWs rest = [] then some v else none
  | none => none

/-! ## Schema validation (zod, as used in `src/run.ts`)

`z.object({...})` in its default mode requires each listed key with a value
of the listed type, ignores unknown keys, and fails on a missing key or a
type mismatch.  Property access on a parsed JavaScript object sees the last
of any duplicate keys. -/

/-- Last-wins field lookup, as property access on a `JSON.parse` result. -/
def lookupField (key : Str) : List (Str × Json) → Option Json
  | [] => none
  | (k, v) :: rest =>
    match lookupField key rest with
    | some r => some r
    | none => if k = key then some v else none

/-- `z.string()`. -/
def asString : Json → Option Str
  | .str s => some s
  | _ => none

/-- `z.array(z.string())`. -/
def asStringList : Json → Option (List Str)
  | .arr xs => xs.mapM asString
  | _ => none

/-- `{queryText, researchGoal}` as produced by the query planner
(`src/run.ts` lines 111–118). -/
structure SerpQuery where
  query : Str
  researchGoal : Str
deriving DecidableEq, Repr

/-- The distiller's result shape (`src/run.ts` lines 170–173). -/
structure DistillRes where
  learnings : List Str
  followUpQuestions : List Str
deriving DecidableEq, Repr

/-- The planner's schema
`z.object({queries: z.array(z.object({query: z.string(), researchGoal: z.string()}))})`. -/
def queriesValidate (j : Json) : Option (List SerpQuery) :=
  match j with
  | .obj fields =>
    match lookupField "queries".data fields with
    | some (.arr xs) =>
      xs.mapM (fun x =>
        match x with
        | .obj fs =>
          match lookupField "query".data fs, lookupField "researchGoal".data fs with
          | some (.str q), some (.str g) => some ⟨q, g⟩
          | _, _ => none
        | _ => none)
    | _ => none
  | _ => none

/-- The distiller's schema
`z.object({learnings: z.array(z.string()), followUpQuestions: z.array(z.string())})`. -/
def distillValidate (j : Json) : Option DistillRes :=
  match j with
  | .obj fields =>
    match lookupField "learnings".data fields with
    | some l =>
      match asStringList l with
      | some ls =>
        match lookupField "followUpQuestions".data fields with
        | some f =>
          match asStringList f with
          | some fs => some ⟨ls, fs⟩
          | none => none
        | none => none
      | none => none
    | none => none
  | _ => none

/-! ## `safeGenerate` (`src/run.ts` lines 37–71) -/

/-- The error message thrown on a parse or validation failure, carrying the
pre-sanitization candidate text (`src/run.ts` line 69). -/
def invalidJsonMsg (jsonString : Str) : Str :=
  "invalid json from model: ".data ++ jsonString

/-- One completion collaborator call: `(system, prompt) ↦ response.text`.
A transport error is `Except.error`; a missing `text` field is `.ok none`
(the source's `response.text ?? ''`). -/
abbrev Completion := Str → Str → Except Str (Option Str)

/-- `safeGenerate({model, system, prompt, schema})`: performs one completion
call (outside any `try`, so a transport failure propagates), locates the
candidate JSON text, strips control characters, removes trailing commas,
parses, and validates; a parse or validation failure becomes a single
`invalid json from model` error and is not retried. -/
def safeGenerate {α : Type} (validate : Json → Option α) (complete : Completion)
    (system prompt : Str) : Except Str α :=
  match complete system prompt with
  | .error e => .error e
  | .ok response =>
    let responseText := response.getD []
    let jsonString := extractCandidate responseText
    let sanitizedJson := stripTrailingCommas (stripControlChars jsonString)
    match parseJson sanitizedJson with
    | none => .error (invalidJsonMsg jsonString)
    | some parsed =>
      match validate parsed with
      | some t => .ok t
      | none => .error (invalidJsonMsg jsonString)

/-! ## `JSON.stringify`, for the round-trip property

Only the fragment the distiller's schema needs: objects of string arrays.
`JSON.stringify` escapes the quote, the backslash and control characters
below `U+0020` (shortcuts for `\b \t \n \f \r`, otherwise `\u00xx`); the
delete character `U+007F` is emitted raw. -/

/-- Lower-case hexadecimal digit. -/
def toHexDigitCh (n : Nat) : Char :=
  if n < 10 then Char.ofNat ('0'.toNat + n) else Char.ofNat ('a'.toNat + n - 10)

/-- `JSON.stringify`'s escaping of one character. -/
def escChar (c : Char) : Str :=
  if c = '"' then ['\\', '"']
  else if c = '\\' then ['\\', '\\']
  else if c = Char.ofNat 0x08 then ['\\', 'b']
  else if c = '\t' then ['\\', 't']
  else if c = '\n' then ['\\', 'n']
  else if c = Char.ofNat 0x0C then ['\\', 'f']
  else if c = '\r' then ['\\', 'r']
  else if c.val < 0x20 then
    ['\\', 'u', '0', '0', toHexDigitCh (c.toNat / 16), toHexDigitCh (c.toNat % 16)]
  else [c]

/-- Escaped body of a rendered string. -/
def escContent (s : Str) : Str := s.flatMap escChar

/-- A rendered, quoted JSON string. -/
def renderStr (s : Str) : Str := '"' :: (escContent s ++ ['"'])

/-- The elements of a rendered string array, including the closing bracket. -/
def renderElems : List Str → Str
  | [] => [']']
  | [s] => renderStr s ++ [']']
  | s :: ss => renderStr s ++ ',' :: renderElems ss

/-- A rendered JSON array of strings. -/
def renderArr (ss : List Str) : Str := '[' :: renderElems ss

/-- `JSON.stringify({learnings, followUpQuestions})`. -/
def renderDistill (ls fs : List Str) : Str :=
  "\x7b\"learnings\":".data ++ renderArr ls ++
    ",\"followUpQuestions\":".data ++ renderArr fs ++ [Char.ofNat 0x7D]

/-- The backtick character, written out since the round-trip analysis is
about code-fence markers. -/
def backtickCh : Char := Char.ofNat 0x60

/-- Does the text start with a run of non-control (`≥ U+0020`) JavaScript
whitespace followed by a closing brace or bracket?  Inside a rendered JSON
string, exactly such a run after a comma is what the trailing-comma regex of
`safeGenerate` would destroy: whitespace below `U+0020` is escaped by
`JSON.stringify` and so cannot feed the regex. -/
def wsHighCloserStart : Str → Bool
  | [] => false
  | c :: r =>
    if isCloser c then true
    else if isJsWs c && decide (0x20 ≤ c.val) then wsHighCloserStart r
    else false

/-- Does the string contain a comma followed (after non-control whitespace)
by a closing brace or bracket? -/
def hasCommaCloser : Str → Bool
  | [] => false
  | c :: r => (c == ',' && wsHighCloserStart r) || hasCommaCloser r

/-- Does the text contain the pattern as a contiguous subsequence? -/
def containsSeq (pat : Str) : Str → Bool
  | [] => false
  | c :: r => pat.isPrefixOf (c :: r) || containsSeq pat r

/-- A string value that survives the fenced-JSON round trip intact: no
backtick (which would end the fenced block early), no delete character
(which sanitization would strip out of the rendered payload), and no comma
standing before a closing brace or bracket (which sanitization would
delete). -/
abbrev roundTripSafe (s : Str) : Prop :=
  (∀ c ∈ s, c ≠ backtickCh ∧ c.val ≠ 0x7F) ∧ hasCommaCloser s = false

/-- The `Json` tree of a rendered distillation payload. -/
def distillJson (ls fs : List Str) : Json :=
  .obj [("learnings".data, .arr (ls.map Json.str)),
        ("followUpQuestions".data, .arr (fs.map Json.str))]

/-! ## `trimPrompt` (`src/ai/providers.ts` lines 69–103) -/

/-- `MinChunkSize` (`src/ai/providers.ts` line 69). -/
def MinChunkSize : Nat := 140

/-- Splits off the part before the first occurrence of a (non-empty)
separator, returning it with the remainder after the separator. -/
def breakOnSep (sep : Str) : Str → Option (Str × Str)
  | [] => none
  | c :: rest =>
    if sep.isPrefixOf (c :: rest) then some ([], (c :: rest).drop sep.length)
    else (breakOnSep sep rest).map (fun p => (c :: p.1, p.2))

/-- Greedily extends a first chunk with further separator-joined pieces while
the result stays within the chunk size. -/
def greedyJoin (sep : Str) (chunkSize : Nat) : Str → List Str → Str
  | acc, [] => acc
  | acc, p :: ps =>
    let cand := acc ++ sep ++ p
    if cand.length ≤ chunkSize then greedyJoin sep chunkSize cand ps else acc

/-- Splits a text into all its pieces at a separator (fuel-bounded; the fuel
`t.length + 1` always suffices for the non-empty separators used here). -/
def splitPiecesF : Nat → Str → Str → List Str
  | 0, _, t => [t]
  | fuel + 1, sep, t =>
    match breakOnSep sep t with
    | none => [t]
    | some (p, rest) => p :: splitPiecesF fuel sep rest

/-- All pieces of `t` at separator `sep`. -/
def splitPieces (sep t : Str) : List Str := splitPiecesF (t.length + 1) sep t

/-- Modelled from the spec: the repository's
`RecursiveCharacterTextSplitter` (`src/ai/text-splitter.ts`, imported by
`src/ai/providers.ts` but not among the sources).  Per §4.1 it splits "into
boundary-respecting chunks (paragraph → sentence → word → character, in that
priority order …) of approximately that target length", and `trimPrompt`
takes the first chunk.  `boundaryFirstChunk seps chunkSize t` computes that
first chunk: at each boundary in priority order, if the first piece fits the
target it greedily packs further separator-joined pieces up to the target;
otherwise it descends into the first piece with the next (smaller) boundary,
falling back to a hard `chunkSize`-character cut at character level. -/
def boundaryFirstChunk : List Str → Nat → Str → Str
  | [], chunkSize, t => t.take chunkSize
  | sep :: seps, chunkSize, t =>
    match splitPieces sep t with
    | [] => t.take chunkSize
    | p :: ps =>
      if p.length ≤ chunkSize then greedyJoin sep chunkSize p ps
      else boundaryFirstChunk seps chunkSize p

/-- The boundary priority order of §4.1: paragraph, sentence, word. -/
def splitterSeps : List Str := ["\n\n".data, ".".data, " ".data]

/-- `splitter.splitText(prompt)[0] ?? ''` for
`new RecursiveCharacterTextSplitter({chunkSize, chunkOverlap: 0})`
(`src/ai/providers.ts` lines 90–94), modelled from the spec. -/
def splitTextFirst (chunkSize : Nat) (t : Str) : Str :=
  boundaryFirstChunk splitterSeps chunkSize t

theorem breakOnSep_length {sep t p rest : Str} (h : breakOnSep sep t = some (p, rest)) :
    p.length ≤ t.length ∧ rest.length ≤ t.length := by
  induction t generalizing p rest with
  | nil => simp [breakOnSep] at h
  | cons c cs ih =>
    simp only [breakOnSep] at h
    by_cases hp : sep.isPrefixOf (c :: cs) = true
    · rw [if_pos hp] at h
      simp at h
      obtain ⟨h1, h2⟩ := h
      subst h1; subst h2
      constructor
      · simp
      · simpa using List.length_drop_le sep.length (c :: cs)
    · rw [if_neg hp] at h
      rcases hb : breakOnSep sep cs with _ | ⟨⟨p', rest'⟩⟩
      · rw [hb] at h; simp at h
      · rw [hb] at h
        simp at h
        obtain ⟨h1, h2⟩ := h
        have := ih hb
        subst h2
        rw [← h1]
        simp
        omega

theorem splitPiecesF_head_length {fuel : Nat} {sep t p : Str} {ps : List Str}
    (h : splitPiecesF fuel sep t = p :: ps) : p.length ≤ t.length := by
  cases fuel with
  | zero =>
    simp [splitPiecesF] at h
    simp [h.1]
  | succ f =>
    simp only [splitPiecesF] at h
    rcases hb : breakOnSep sep t with _ | ⟨⟨q, rest⟩⟩
    · rw [hb] at h; simp at h; simp [h.1]
    · rw [hb] at h
      simp at h
      rw [← h.1]
      exact (breakOnSep_length hb).1

theorem greedyJoin_length (sep : Str) (chunkSize : Nat) :
    ∀ (ps : List Str) (acc : Str),
      (greedyJoin sep chunkSize acc ps).length ≤ max acc.length chunkSize := by
  intro ps
  induction ps with
  | nil => intro acc; simp [greedyJoin]
  | cons p ps ih =>
    intro acc
    simp only [greedyJoin]
    by_cases hc : (acc ++ sep ++ p).length ≤ chunkSize
    · rw [if_pos hc]
      have := ih (acc ++ sep ++ p)
      omega
    · rw [if_neg hc]
      omega

theorem boundaryFirstChunk_length :
    ∀ (seps : List Str) (chunkSize : Nat) (t : Str),
      (boundaryFirstChunk seps chunkSize t).length ≤ max chunkSize t.length := by
  intro seps
  induction seps with
  | nil =>
    intro chunkSize t
    simp [boundaryFirstChunk]
  | cons sep seps ih =>
    intro chunkSize t
    simp only [boundaryFirstChunk]
    rcases hs : splitPieces sep t with _ | ⟨p, ps⟩
    · simp
    · have hp : p.length ≤ t.length := splitPiecesF_head_length hs
      dsimp only
      by_cases hfit : p.length ≤ chunkSize
      · rw [if_pos hfit]
        have := greedyJoin_length sep chunkSize ps p
        omega
      · rw [if_neg hfit]
        have := ih chunkSize p
        omega

/-- `trimPrompt(prompt, contextSize)` (`src/ai/providers.ts` lines 73–103).
The token estimator `encoder.encode(prompt).length` of `js-tiktoken` is an
external collaborator, abstracted as an arbitrary `tok : Str → Nat`: every
verified property holds for all estimators. -/
def trimPrompt (tok : Str → Nat) (prompt : Str) (contextSize : Nat) : Str :=
  if prompt = [] then []
  else
    let length := tok prompt
    if length ≤ contextSize then prompt
    else
      let overflowTokens := length - contextSize
      -- on average 3 characters per token (`src/ai/providers.ts` line 85)
      let chunkSize : Int := (prompt.length : Int) - (overflowTokens : Int) * 3
      if h3 : chunkSize < (MinChunkSize : Nat) then prompt.take MinChunkSize
      else
        let trimmedPrompt := splitTextFirst chunkSize.toNat prompt
        if trimmedPrompt.length = prompt.length then
          trimPrompt tok (prompt.take chunkSize.toNat) contextSize
        else
          trimPrompt tok trimmedPrompt contextSize
termination_by prompt.length
decreasing_by
  · rename_i hnil hle heq
    have hne : prompt.length ≠ 0 := fun hz => hnil (List.eq_nil_of_length_eq_zero hz)
    have h1' : ¬ tok prompt ≤ contextSize := hle
    have h3' : ¬ ((prompt.length : Int) - ((tok prompt - contextSize : Nat) : Int) * 3 < 140) := h3
    simp only [List.length_take]
    omega
  · rename_i hnil hle hneq
    have h2' : ¬ tok prompt ≤ contextSize := hle
    have h3' : ¬ ((prompt.length : Int) - ((tok prompt - contextSize : Nat) : Int) * 3 < 140) := h3
    have hb := boundaryFirstChunk_length splitterSeps
      ((prompt.length : Int) - ((tok prompt - contextSize : Nat) : Int) * 3).toNat prompt
    have hlen' : (boundaryFirstChunk splitterSeps
        ((prompt.length : Int) - ((tok prompt - contextSize : Nat) : Int) * 3).toNat prompt).length
        ≠ prompt.length := hneq
    simp only [splitTextFirst]
    omega

/-! ## The research orchestrator (`src/run.ts` lines 73–185 and 299–383) -/

/-- One item of a search collaborator response (`firecrawl` result datum):
both fields are optional in the `SearchResponse` type. -/
structure SearchItem where
  url : Option Str
  description : Option Str
deriving DecidableEq, Repr

/-- `ResearchResult` (`src/run.ts` lines 24–27). -/
structure ResearchResult where
  learnings : List Str
  visitedUrls : List Str
deriving DecidableEq, Repr

/-- `ConcurrencyLimit` (`src/run.ts` line 29). -/
def ConcurrencyLimit : Nat := 2

/-- The external collaborators and ambient configuration of one run.
`complete` is the model-completion service behind `generateText`; `search`
is the `firecrawl.search` web-search service (a transport error is
`Except.error`); `systemPrompt` is the value of `systemPrompt()` from
`src/prompt.ts` (a constant string, not among the sources); `tok` is the
`js-tiktoken` token estimator used by `trimPrompt`. -/
structure Env where
  complete : Completion
  search : Str → Except Str (List SearchItem)
  systemPrompt : Str
  tok : Str → Nat

/-- `lodash.compact` on a list of optional strings: drops `null`/`undefined`
and (being a falsy-filter) also empty strings. -/
def compactStr (xs : List (Option Str)) : List Str :=
  (xs.filterMap id).filter (fun s => s ≠ [])

/-- The planner's prompt template (`src/run.ts` lines 85–109).  The
`${learnings ? … : ''}` segment is always taken: `deepResearch` always
passes an array, and an empty array is truthy in JavaScript. -/
def serpQueriesPrompt (query : Str) (learnings : List Str) : Str :=
  ("given the following prompt from the user, generate a list of serp queries to research the topic.\n\n### output format:\nreturn your response in **valid json format**, following this **exact** structure:\n```json\n\x7b\n  \"queries\": [\n    \x7b\n      \"query\": \"string\",\n      \"researchGoal\": \"string\"\n    \x7d\n  ]\n\x7d\n```\n\n### rules:\n- **only return valid json.** no explanations or extra text.\n- each query **must be unique** and not redundant.\n- each research goal should be **detailed and suggest further research directions**.\n\nuser prompt:\n<prompt>").data
  ++ query
  ++ "</prompt>\n\nhere are previous research learnings to refine queries: ".data
  ++ List.intercalate "\n".data learnings
  ++ "\n".data

/-- `generateSerpQueries` (`src/run.ts` lines 73–129): one validated
completion call, truncated to the first `numQueries` entries. -/
def generateSerpQueries (env : Env) (query : Str) (numQueries : Nat)
    (learnings : List Str) : Except Str (List SerpQuery) :=
  match safeGenerate queriesValidate env.complete env.systemPrompt
      (serpQueriesPrompt query learnings) with
  | .error e => .error e
  | .ok queries => .ok (queries.take numQueries)

/-- The distiller's prompt template (`src/run.ts` lines 150–168). -/
def processSerpPrompt (query : Str) (contents : List Str) : Str :=
  "given the following contents from a serp search for the query <query>".data
  ++ query
  ++ ("</query>, generate a structured json response with two fields: \"learnings\" and \"followUpQuestions\". \n\nreturn your response in the following json format:\n```json\n\x7b\n  \"learnings\": [\"string1\", \"string2\", \"string3\"],\n  \"followUpQuestions\": [\"question1\", \"question2\", \"question3\"]\n\x7d\n```\n\nmake sure:\n- the json is well-formed.\n- each learning is unique and contains specific details, numbers, or entities.\n- the follow-up questions help refine further research.\n\n<contents>").data
  ++ List.intercalate "\n".data
      (contents.map (fun content => "<content>\n".data ++ content ++ "\n</content>".data))
  ++ "</contents>\n".data

/-- `processSerpResult` (`src/run.ts` lines 131–185): trims each non-empty
result description to a 25 000-token budget, prompts the model, and returns
the validated `{learnings, followUpQuestions}` payload exactly as parsed —
`numLearnings` and `numFollowUpQuestions` are accepted but never applied. -/
def processSerpResult (env : Env) (query : Str) (result : List SearchItem)
    (numLearnings : Nat := 3) (numFollowUpQuestions : Nat := 3) :
    Except Str DistillRes :=
  let contents := (compactStr (result.map (fun item => item.description))).map
    (fun content => trimPrompt env.tok content 25000)
  safeGenerate distillValidate env.complete env.systemPrompt
    (processSerpPrompt query contents)

/-- `[...new Set(l)]`: first-occurrence de-duplication, as iterating a
JavaScript `Set` built by spreading. -/
def dedupAux (seen : List Str) : List Str → List Str
  | [] => []
  | x :: xs => if x ∈ seen then dedupAux seen xs else x :: dedupAux (x :: seen) xs

/-- First-occurrence de-duplication (`src/run.ts` lines 380–381). -/
def dedupFirst (l : List Str) : List Str := dedupAux [] l

/-- The composite next query synthesized before recursing
(`src/run.ts` lines 353–356), template-literal indentation included. -/
def nextQuery (researchGoal : Str) (followUpQuestions : List Str) : Str :=
  jsTrim (
    "\n            previous research goal: ".data
    ++ researchGoal
    ++ "\n            follow-up research directions: ".data
    ++ followUpQuestions.flatMap (fun q => '\n' :: q)
    ++ "\n          ".data)

mutual

/-- `deepResearch` (`src/run.ts` lines 299–383).  The planner call is outside
any `try`, so its failure is the only failure this function propagates; each
sub-query then runs as an isolated branch, and the branch results are merged
into de-duplicated learnings and visited-URL lists. -/
def deepResearch (env : Env) (query : Str) (breadth depth : Nat)
    (learnings visitedUrls : List Str) : Except Str ResearchResult :=
  match generateSerpQueries env query breadth learnings with
  | .error e => .error e
  | .ok serpQueries =>
    let results := serpQueries.map
      (fun serpQuery => runBranch env breadth depth learnings visitedUrls serpQuery)
    .ok ⟨dedupFirst (results.flatMap ResearchResult.learnings),
         dedupFirst (results.flatMap ResearchResult.visitedUrls)⟩
termination_by 2 * depth + 1

/-- One sub-query branch of `deepResearch` (`src/run.ts` lines 321–375): the
body of the `limit(async () => …)` task.  Its `try`/`catch` converts every
failure — an empty planner query, a search transport error, a distiller
failure, or an error escaping the recursive call — into the empty
contribution `{learnings: [], visitedUrls: []}`. -/
def runBranch (env : Env) (breadth depth : Nat)
    (learnings visitedUrls : List Str) (serpQuery : SerpQuery) : ResearchResult :=
  if serpQuery.query = [] then ⟨[], []⟩
  else
    match env.search serpQuery.query with
    | .error _ => ⟨[], []⟩
    | .ok result =>
      let newUrls := compactStr (result.map (fun item => item.url))
      let newBreadth := (breadth + 1) / 2   -- Math.ceil(breadth / 2)
      let newDepth := depth - 1
      match processSerpResult env serpQuery.query result 3 newBreadth with
      | .error _ => ⟨[], []⟩
      | .ok newLearnings =>
        let allLearnings := learnings ++ newLearnings.learnings
        let allUrls := visitedUrls ++ newUrls
        if h : 0 < newDepth then
          match deepResearch env
              (nextQuery serpQuery.researchGoal newLearnings.followUpQuestions)
              newBreadth newDepth allLearnings allUrls with
          | .error _ => ⟨[], []⟩
          | .ok r => r
        else ⟨allLearnings, allUrls⟩
termination_by 2 * depth
decreasing_by
  omega

end

/-- The branch body of `deepResearch`, abstracted over the recursive call:
`runBranchWith rec` is `runBranch` with `rec` in place of the recursive
`deepResearch` invocation. -/
def runBranchWith (rec : Str → Nat → Nat → List Str → List Str → Except Str ResearchResult)
    (env : Env) (breadth depth : Nat)
    (learnings visitedUrls : List Str) (serpQuery : SerpQuery) : ResearchResult :=
  if serpQuery.query = [] then ⟨[], []⟩
  else
    match env.search serpQuery.query with
    | .error _ => ⟨[], []⟩
    | .ok result =>
      let newUrls := compactStr (result.map (fun item => item.url))
      let newBreadth := (breadth + 1) / 2
      let newDepth := depth - 1
      match processSerpResult env serpQuery.query result 3 newBreadth with
      | .error _ => ⟨[], []⟩
      | .ok newLearnings =>
        let allLearnings := learnings ++ newLearnings.learnings
        let allUrls := visitedUrls ++ newUrls
        if 0 < newDepth then
          match rec (nextQuery serpQuery.researchGoal newLearnings.followUpQuestions)
              newBreadth newDepth allLearnings allUrls with
          | .error _ => ⟨[], []⟩
          | .ok r => r
        else ⟨allLearnings, allUrls⟩

/-- `deepResearch` with an explicit recursion-depth budget: structural on the
fuel counter, hence kernel-executable, and equal to `deepResearch` whenever
the fuel exceeds the depth budget (`deepResearchFuel_eq`). -/
def deepResearchFuel : Nat → Env → Str → Nat → Nat → List Str → List Str →
    Except Str ResearchResult
  | 0, _, _, _, _, _, _ => .error "recursion fuel exhausted".data
  | fuel + 1, env, query, breadth, depth, learnings, visitedUrls =>
    match generateSerpQueries env query breadth learnings with
    | .error e => .error e
    | .ok serpQueries =>
      let results := serpQueries.map
        (runBranchWith (deepResearchFuel fuel env) env breadth depth learnings visitedUrls)
      .ok ⟨dedupFirst (results.flatMap ResearchResult.learnings),
           dedupFirst (results.flatMap ResearchResult.visitedUrls)⟩

/-- The child budget computed inside each branch (`src/run.ts` lines
339–340): `{breadth: Math.ceil(breadth / 2), depth: depth - 1}`, the values
`newBreadth` and `newDepth` that `runBranch` passes to the recursive
`deepResearch` call. -/
def childBudget (breadth depth : Nat) : Nat × Nat := ((breadth + 1) / 2, depth - 1)

/-! ## Witness environments (concrete collaborator oracles) -/

/-- A completion response that validates under both the planner's and the
distiller's schema (each ignores the other's keys): two sub-queries, one
learning, no follow-ups. -/
def respTwoQueries : Str :=
  "\x7b\"queries\":[\x7b\"query\":\"q1\",\"researchGoal\":\"g\"\x7d,\x7b\"query\":\"q2\",\"researchGoal\":\"g\"\x7d],\"learnings\":[\"L1\"],\"followUpQuestions\":[]\x7d".data

/-- Like `respTwoQueries` with a single sub-query. -/
def respOneQuery : Str :=
  "\x7b\"queries\":[\x7b\"query\":\"q1\",\"researchGoal\":\"g\"\x7d],\"learnings\":[\"L1\"],\"followUpQuestions\":[]\x7d".data

/-- Environment: one sub-query, search finds one URL with no description. -/
def envOne : Env where
  complete := fun _ _ => .ok (some respOneQuery)
  search := fun _ => .ok [⟨some "u1".data, none⟩]
  systemPrompt := []
  tok := fun _ => 0

/-- Environment: two sub-queries, both searches return the same URL, so both
branches report the identical learning and URL. -/
def envTwin : Env where
  complete := fun _ _ => .ok (some respTwoQueries)
  search := fun _ => .ok [⟨some "u1".data, none⟩]
  systemPrompt := []
  tok := fun _ => 0

/-- Environment: two sub-queries, the search call for `q1` fails at the
transport level, the one for `q2` succeeds. -/
def envOneFails : Env where
  complete := fun _ _ => .ok (some respTwoQueries)
  search := fun q => if q = "q1".data then .error "transport failure".data
    else .ok [⟨some "u2".data, none⟩]
  systemPrompt := []
  tok := fun _ => 0

/-- Environment: the planner returns no sub-queries at all. -/
def envNoQueries : Env where
  complete := fun _ _ => .ok (some "\x7b\"queries\":[]\x7d".data)
  search := fun _ => .ok []
  systemPrompt := []
  tok := fun _ => 0

/-- Environment: the distiller reports four learnings. -/
def envFourLearnings : Env where
  complete := fun _ _ => .ok (some "\x7b\"learnings\":[\"a\",\"b\",\"c\",\"d\"],\"followUpQuestions\":[]\x7d".data)
  search := fun _ => .ok []
  systemPrompt := []
  tok := fun _ => 0

theorem runBranch_eq_runBranchWith (env : Env) (breadth depth : Nat)
    (learnings visitedUrls : List Str) (serpQuery : SerpQuery) :
    runBranch env breadth depth learnings visitedUrls serpQuery =
      runBranchWith
        (fun q b d ls vs => deepResearch env q b d ls vs)
        env breadth depth learnings visitedUrls serpQuery := by
  rw [runBranch]
  simp only [runBranchWith]
  by_cases hq : serpQuery.query = []
  · simp [hq]
  · rw [if_neg hq, if_neg hq]
    cases hs : env.search serpQuery.query with
    | error e => rfl
    | ok result =>
      simp only
      cases hd : processSerpResult env serpQuery.query result 3 ((breadth + 1) / 2) with
      | error e => rfl
      | ok nl =>
        simp only
        by_cases hdep : 0 < depth - 1
        · rw [dif_pos hdep, if_pos hdep]
        · rw [dif_neg hdep, if_neg hdep]

theorem deepResearchFuel_eq :
    ∀ (fuel : Nat) (env : Env) (query : Str) (breadth depth : Nat)
      (learnings visitedUrls : List Str), depth < fuel →
      deepResearchFuel fuel env query breadth depth learnings visitedUrls =
        deepResearch env query breadth depth learnings visitedUrls := by
  intro fuel
  induction fuel with
  | zero => intro env q b d ls vs h; omega
  | succ f ih =>
    intro env q b d ls vs h
    rw [deepResearch]
    simp only [deepResearchFuel]
    cases hplan : generateSerpQueries env q b ls with
    | error e => rfl
    | ok qs =>
      simp only
      have hbr : ∀ sq, runBranchWith (deepResearchFuel f env) env b d ls vs sq
          = runBranch env b d ls vs sq := by
        intro sq
        rw [runBranch_eq_runBranchWith]
        simp only [runBranchWith]
        by_cases hq : sq.query = []
        · simp [hq]
        · rw [if_neg hq, if_neg hq]
          cases hs : env.search sq.query with
          | error e => rfl
          | ok result =>
            simp only
            cases hd : processSerpResult env sq.query result 3 ((b + 1) / 2) with
            | error e => rfl
            | ok nl =>
              simp only
              by_cases hdep : 0 < d - 1
              · rw [if_pos hdep, if_pos hdep]
                rw [ih env _ _ (d - 1) _ _ (by omega)]
              · rw [if_neg hdep, if_neg hdep]
      have hfun : runBranchWith (deepResearchFuel f env) env b d ls vs
          = fun sq => runBranch env b d ls vs sq := funext hbr
      rw [hfun]

theorem dedupAux_sound (l : List Str) : ∀ (seen : List Str),
    (dedupAux seen l).Nodup ∧ (∀ x, x ∈ dedupAux seen l ↔ x ∈ l ∧ x ∉ seen) := by
  induction l with
  | nil => intro seen; simp [dedupAux]
  | cons y ys ih =>
    intro seen
    simp only [dedupAux]
    by_cases hy : y ∈ seen
    · rw [if_pos hy]
      obtain ⟨hnd, hmem⟩ := ih seen
      refine ⟨hnd, fun x => ?_⟩
      rw [hmem x]
      constructor
      · rintro ⟨hx, hn⟩
        exact ⟨List.mem_cons_of_mem y hx, hn⟩
      · rintro ⟨hx, hn⟩
        rcases List.mem_cons.mp hx with rfl | hx'
        · exact absurd hy hn
        · exact ⟨hx', hn⟩
    · rw [if_neg hy]
      obtain ⟨hnd, hmem⟩ := ih (y :: seen)
      constructor
      · refine List.nodup_cons.mpr ⟨fun hc => ?_, hnd⟩
        have := (hmem y).mp hc
        exact this.2 (List.mem_cons_self y seen)
      · intro x
        rw [List.mem_cons, hmem x]
        constructor
        · rintro (hxy | ⟨hx, hn⟩)
          · subst hxy
            exact ⟨List.mem_cons_self x ys, hy⟩
          · refine ⟨List.mem_cons_of_mem y hx, fun hs => hn (List.mem_cons_of_mem y hs)⟩
        · rintro ⟨hx, hn⟩
          by_cases hxy : x = y
          · exact Or.inl hxy
          · rcases List.mem_cons.mp hx with rfl | hx'
            · exact Or.inl rfl
            · refine Or.inr ⟨hx', fun hs => ?_⟩
              rcases List.mem_cons.mp hs with rfl | hs'
              · exact hxy rfl
              · exact hn hs'

theorem nodup_dedupFirst (l : List Str) : (dedupFirst l).Nodup :=
  (dedupAux_sound l []).1

theorem mem_dedupFirst {x : Str} {l : List Str} : x ∈ dedupFirst l ↔ x ∈ l := by
  have := ((dedupAux_sound l []).2 x)
  simpa [dedupFirst] using this

theorem childBudget_ceil (b d : Nat) : ((childBudget b d).1 : Int) = ⌈(b : ℚ) / 2⌉ := by
  simp only [childBudget]
  obtain ⟨k, hk⟩ : ∃ k, (b + 1) / 2 = k := ⟨_, rfl⟩
  rw [hk]
  have h1 : 2 * k ≤ b + 1 := by omega
  have h2 : b ≤ 2 * k := by omega
  have h1q : (2 : ℚ) * k ≤ (b : ℚ) + 1 := by exact_mod_cast h1
  have h2q : (b : ℚ) ≤ 2 * k := by exact_mod_cast h2
  rw [eq_comm, Int.ceil_eq_iff]
  constructor
  · push_cast
    linarith
  · push_cast
    linarith

theorem count_eq_one_of_nodup_mem {x : Str} {l : List Str} (hn : l.Nodup) (hx : x ∈ l) :
    l.count x = 1 := by
  induction l with
  | nil => simp at hx
  | cons y ys ih =>
    obtain ⟨hny, hnys⟩ := List.nodup_cons.mp hn
    rcases List.mem_cons.mp hx with rfl | hx'
    · rw [List.count_cons_self]
      have hz : ys.count x = 0 := List.count_eq_zero.mpr hny
      omega
    · have h1 := ih hnys hx'
      have hyx : x ≠ y := fun he => hny (he ▸ hx')
      rw [List.count_cons_of_ne hyx]
      exact h1

/-! # The claims -/

/-- **C1**: every recursive call of the orchestrator uses the child budget
`childBudget = {breadth: ceil(breadth/2), depth: depth − 1}` — exactly the
`newBreadth`/`newDepth` pair of `runBranch` — and a recursive call is made
only under the guard `0 < newDepth`, so the child depth is strictly below the
parent depth at every call that happens; consequently the recursion depth is
bounded by the initial `depth`: with any fuel exceeding `depth`, the
fuel-bounded `deepResearchFuel` agrees with `deepResearch`, which always
terminates. -/
theorem deepResearch_budget_monotone (env : Env) (query : Str)
    (breadth depth : Nat) (learnings visitedUrls : List Str) (fuel : Nat)
    (hf : depth < fuel) :
    deepResearchFuel fuel env query breadth depth learnings visitedUrls =
      deepResearch env query breadth depth learnings visitedUrls ∧
    childBudget breadth depth = ((breadth + 1) / 2, depth - 1) ∧
    ((childBudget breadth depth).1 : Int) = ⌈(breadth : ℚ) / 2⌉ ∧
    (0 < (childBudget breadth depth).2 → (childBudget breadth depth).2 < depth) :=
  ⟨deepResearchFuel_eq fuel env query breadth depth learnings visitedUrls hf,
   rfl, childBudget_ceil breadth depth, by simp only [childBudget]; omega⟩

theorem deepResearch_budget_monotone_witness :
    1 < 2 ∧
    deepResearchFuel 2 envOne "topic".data 1 1 [] [] =
      deepResearch envOne "topic".data 1 1 [] [] :=
  ⟨by omega, (deepResearch_budget_monotone envOne "topic".data 1 1 [] [] 2 (by omega)).1⟩

/-- **C7**: whenever `deepResearch` returns a result, its merged `learnings`
and `visitedUrls` lists are duplicate-free, and any string reported by
several sibling branches therefore appears exactly once. -/
theorem deepResearch_merge_dedup (env : Env) (query : Str)
    (breadth depth : Nat) (learnings visitedUrls : List Str) (r : ResearchResult)
    (h : deepResearch env query breadth depth learnings visitedUrls = .ok r) :
    r.learnings.Nodup ∧ r.visitedUrls.Nodup ∧
    (∀ x, x ∈ r.learnings → r.learnings.count x = 1) ∧
    (∀ x, x ∈ r.visitedUrls → r.visitedUrls.count x = 1) := by
  rw [deepResearch] at h
  cases hplan : generateSerpQueries env query breadth learnings with
  | error e => rw [hplan] at h; exact absurd h (by simp)
  | ok qs =>
    rw [hplan] at h
    simp only at h
    injection h with h2
    subst h2
    refine ⟨nodup_dedupFirst _, nodup_dedupFirst _, fun x hx => ?_, fun x hx => ?_⟩
    · exact count_eq_one_of_nodup_mem (nodup_dedupFirst _) hx
    · exact count_eq_one_of_nodup_mem (nodup_dedupFirst _) hx

theorem deepResearch_merge_dedup_witness :
    deepResearch envTwin "t".data 2 1 [] [] = .ok ⟨["L1".data], ["u1".data]⟩ ∧
    (["L1".data] : List Str).Nodup ∧ (["u1".data] : List Str).Nodup := by
  have h : deepResearch envTwin "t".data 2 1 [] [] = .ok ⟨["L1".data], ["u1".data]⟩ := by
    rw [← deepResearchFuel_eq 2 envTwin "t".data 2 1 [] [] (by omega)]
    rfl
  have hmain := deepResearch_merge_dedup envTwin "t".data 2 1 [] [] _ h
  exact ⟨h, hmain.1, hmain.2.1⟩

/-- **C4**: failures are isolated per branch.  Whenever the planner call
succeeds, `deepResearch` returns exactly the de-duplicated merge of all
branch results; a branch whose search call fails, whose distiller call
fails, or whose recursive call raises contributes the empty result; every
learning produced by any branch — failing siblings notwithstanding — reaches
the merged result; and `deepResearch` itself only fails when the top-level
planner call fails, with the same error. -/
theorem deepResearch_branch_isolation (env : Env) (query : Str)
    (breadth depth : Nat) (learnings visitedUrls : List Str) :
    (∀ qs, generateSerpQueries env query breadth learnings = .ok qs →
      deepResearch env query breadth depth learnings visitedUrls =
        .ok ⟨dedupFirst ((qs.map (runBranch env breadth depth learnings visitedUrls)).flatMap
                ResearchResult.learnings),
             dedupFirst ((qs.map (runBranch env breadth depth learnings visitedUrls)).flatMap
                ResearchResult.visitedUrls)⟩) ∧
    (∀ sq e, env.search sq.query = .error e →
      runBranch env breadth depth learnings visitedUrls sq = ⟨[], []⟩) ∧
    (∀ sq result e, env.search sq.query = .ok result →
      processSerpResult env sq.query result 3 ((breadth + 1) / 2) = .error e →
      runBranch env breadth depth learnings visitedUrls sq = ⟨[], []⟩) ∧
    (∀ sq result nl e, env.search sq.query = .ok result →
      processSerpResult env sq.query result 3 ((breadth + 1) / 2) = .ok nl →
      0 < depth - 1 →
      deepResearch env (nextQuery sq.researchGoal nl.followUpQuestions)
          ((breadth + 1) / 2) (depth - 1) (learnings ++ nl.learnings)
          (visitedUrls ++ compactStr (result.map SearchItem.url)) = .error e →
      runBranch env breadth depth learnings visitedUrls sq = ⟨[], []⟩) ∧
    (∀ qs sq x, generateSerpQueries env query breadth learnings = .ok qs → sq ∈ qs →
      x ∈ (runBranch env breadth depth learnings visitedUrls sq).learnings →
      ∃ r, deepResearch env query breadth depth learnings visitedUrls = .ok r ∧
        x ∈ r.learnings) ∧
    (∀ e, deepResearch env query breadth depth learnings visitedUrls = .error e →
      generateSerpQueries env query breadth learnings = .error e) := by
  constructor
  · intro qs hplan
    rw [deepResearch, hplan]
  constructor
  · intro sq e hsearch
    rw [runBranch]
    by_cases hq : sq.query = []
    · simp [hq]
    · rw [if_neg hq, hsearch]
  constructor
  · intro sq result e hsearch hdist
    rw [runBranch]
    by_cases hq : sq.query = []
    · simp [hq]
    · rw [if_neg hq, hsearch]
      simp only
      rw [hdist]
  constructor
  · intro sq result nl e hsearch hdist hdep hrec
    rw [runBranch]
    by_cases hq : sq.query = []
    · simp [hq]
    · rw [if_neg hq, hsearch]
      simp only
      rw [hdist]
      simp only
      rw [dif_pos hdep, hrec]
  constructor
  · intro qs sq x hplan hsq hx
    refine ⟨_, by rw [deepResearch, hplan], ?_⟩
    simp only
    rw [mem_dedupFirst]
    exact List.mem_flatMap.mpr
      ⟨runBranch env breadth depth learnings visitedUrls sq,
       List.mem_map_of_mem _ hsq, hx⟩
  · intro e herr
    rw [deepResearch] at herr
    cases hplan : generateSerpQueries env query breadth learnings with
    | error e' =>
      rw [hplan] at herr
      simpa using herr
    | ok qs =>
      rw [hplan] at herr
      simp at herr

theorem deepResearch_branch_isolation_witness :
    deepResearch envOneFails "t".data 2 1 [] [] = .ok ⟨["L1".data], ["u2".data]⟩ ∧
    runBranch envOneFails 2 1 [] [] ⟨"q1".data, "g".data⟩ = ⟨[], []⟩ ∧
    "L1".data ∈ (["L1".data] : List Str) := by
  have h1 : deepResearch envOneFails "t".data 2 1 [] [] = .ok ⟨["L1".data], ["u2".data]⟩ := by
    rw [← deepResearchFuel_eq 2 envOneFails "t".data 2 1 [] [] (by omega)]
    rfl
  have h2 := (deepResearch_branch_isolation envOneFails "t".data 2 1 [] []).2.1
    ⟨"q1".data, "g".data⟩ "transport failure".data (by rfl)
  exact ⟨h1, h2, by simp⟩

/-- **C6 (counterexample)**: an invocation with a non-empty input accumulator
whose planner yields no sub-queries (every branch list is empty) returns the
empty result — the returned learnings and visited URLs do *not* include the
input accumulator's contents, contrary to the claim's final clause. -/
theorem deepResearch_accumulator_cex :
    deepResearch envNoQueries "t".data 2 1 ["a".data] ["u".data] = .ok ⟨[], []⟩ ∧
    "a".data ∉ (ResearchResult.mk [] []).learnings ∧
    "u".data ∉ (ResearchResult.mk [] []).visitedUrls := by
  refine ⟨?_, by simp, by simp⟩
  rw [← deepResearchFuel_eq 2 envNoQueries "t".data 2 1 ["a".data] ["u".data] (by omega)]
  rfl

/-- **C6 (amended)**: each recursive call receives the parent's accumulator
contents plus the branch's own new findings (`learnings ++ nl.learnings`,
`visitedUrls ++ newUrls`); a branch that succeeds with depth exhausted
contributes exactly that extended accumulator; and the invocation's result is
the de-duplicated union of the branch contributions — so it includes the
input accumulator whenever at least one branch succeeds at exhausted depth,
though not in general (see the counterexample). -/
theorem deepResearch_accumulator (env : Env) (query : Str)
    (breadth depth : Nat) (learnings visitedUrls : List Str) :
    (∀ sq result nl, sq.query ≠ [] →
      env.search sq.query = .ok result →
      processSerpResult env sq.query result 3 ((breadth + 1) / 2) = .ok nl →
      (0 < depth - 1 →
        runBranch env breadth depth learnings visitedUrls sq =
          match deepResearch env (nextQuery sq.researchGoal nl.followUpQuestions)
              ((breadth + 1) / 2) (depth - 1) (learnings ++ nl.learnings)
              (visitedUrls ++ compactStr (result.map SearchItem.url)) with
          | .error _ => ⟨[], []⟩
          | .ok r => r) ∧
      (depth - 1 = 0 →
        runBranch env breadth depth learnings visitedUrls sq =
          ⟨learnings ++ nl.learnings,
           visitedUrls ++ compactStr (result.map SearchItem.url)⟩)) ∧
    (∀ qs, generateSerpQueries env query breadth learnings = .ok qs →
      deepResearch env query breadth depth learnings visitedUrls =
        .ok ⟨dedupFirst ((qs.map (runBranch env breadth depth learnings visitedUrls)).flatMap
                ResearchResult.learnings),
             dedupFirst ((qs.map (runBranch env breadth depth learnings visitedUrls)).flatMap
                ResearchResult.visitedUrls)⟩) ∧
    (∀ qs sq result nl, generateSerpQueries env query breadth learnings = .ok qs →
      sq ∈ qs → sq.query ≠ [] →
      env.search sq.query = .ok result →
      processSerpResult env sq.query result 3 ((breadth + 1) / 2) = .ok nl →
      depth - 1 = 0 →
      ∃ r, deepResearch env query breadth depth learnings visitedUrls = .ok r ∧
        (∀ x ∈ learnings, x ∈ r.learnings) ∧
        (∀ x ∈ visitedUrls, x ∈ r.visitedUrls)) := by
  have hbranch : ∀ sq result nl, sq.query ≠ [] →
      env.search sq.query = .ok result →
      processSerpResult env sq.query result 3 ((breadth + 1) / 2) = .ok nl →
      (0 < depth - 1 →
        runBranch env breadth depth learnings visitedUrls sq =
          match deepResearch env (nextQuery sq.researchGoal nl.followUpQuestions)
              ((breadth + 1) / 2) (depth - 1) (learnings ++ nl.learnings)
              (visitedUrls ++ compactStr (result.map SearchItem.url)) with
          | .error _ => ⟨[], []⟩
          | .ok r => r) ∧
      (depth - 1 = 0 →
        runBranch env breadth depth learnings visitedUrls sq =
          ⟨learnings ++ nl.learnings,
           visitedUrls ++ compactStr (result.map SearchItem.url)⟩) := by
    intro sq result nl hq hsearch hdist
    constructor
    · intro hdep
      rw [runBranch, if_neg hq, hsearch]
      simp only
      rw [hdist]
      simp only
      rw [dif_pos hdep]
    · intro hdep
      rw [runBranch, if_neg hq, hsearch]
      simp only
      rw [hdist]
      simp only
      rw [dif_neg (by omega : ¬ 0 < depth - 1)]
  refine ⟨hbranch, fun qs hplan => by rw [deepResearch, hplan], ?_⟩
  intro qs sq result nl hplan hsq hq hsearch hdist hdep
  refine ⟨_, by rw [deepResearch, hplan], ?_, ?_⟩
  · intro x hx
    simp only
    rw [mem_dedupFirst]
    refine List.mem_flatMap.mpr
      ⟨runBranch env breadth depth learnings visitedUrls sq, List.mem_map_of_mem _ hsq, ?_⟩
    rw [((hbranch sq result nl hq hsearch hdist).2 hdep)]
    exact List.mem_append_left _ hx
  · intro x hx
    simp only
    rw [mem_dedupFirst]
    refine List.mem_flatMap.mpr
      ⟨runBranch env breadth depth learnings visitedUrls sq, List.mem_map_of_mem _ hsq, ?_⟩
    rw [((hbranch sq result nl hq hsearch hdist).2 hdep)]
    exact List.mem_append_left _ hx

theorem deepResearch_accumulator_witness :
    deepResearch envOne "t".data 1 1 ["old".data] ["uold".data] =
      .ok ⟨["old".data, "L1".data], ["uold".data, "u1".data]⟩ ∧
    runBranch envOne 1 1 ["old".data] ["uold".data] ⟨"q1".data, "g".data⟩ =
      ⟨["old".data, "L1".data], ["uold".data, "u1".data]⟩ := by
  have h1 : deepResearch envOne "t".data 1 1 ["old".data] ["uold".data] =
      .ok ⟨["old".data, "L1".data], ["uold".data, "u1".data]⟩ := by
    rw [← deepResearchFuel_eq 2 envOne "t".data 1 1 ["old".data] ["uold".data] (by omega)]
    rfl
  have h2 := ((deepResearch_accumulator envOne "t".data 1 1 ["old".data] ["uold".data]).1
    ⟨"q1".data, "g".data⟩ [⟨some "u1".data, none⟩] ⟨["L1".data], []⟩
    (by simp) (by rfl) (by rfl)).2 (by omega)
  exact ⟨h1, h2⟩

theorem trimPrompt_spec (tok : Str → Nat) :
    ∀ (n : Nat) (prompt : Str), prompt.length ≤ n → ∀ (contextSize : Nat),
      tok (trimPrompt tok prompt contextSize) ≤ contextSize ∨
      (trimPrompt tok prompt contextSize).length ≤ MinChunkSize := by
  intro n
  induction n with
  | zero =>
    intro prompt hlen contextSize
    have hp : prompt = [] := List.eq_nil_of_length_eq_zero (by omega)
    subst hp
    rw [trimPrompt]
    simp [MinChunkSize]
  | succ n ih =>
    intro prompt hlen contextSize
    rw [trimPrompt]
    dsimp only
    by_cases h0 : prompt = []
    · rw [if_pos h0]
      right
      simp [MinChunkSize]
    · rw [if_neg h0]
      by_cases h1 : tok prompt ≤ contextSize
      · rw [if_pos h1]
        exact Or.inl h1
      · rw [if_neg h1]
        by_cases h3 : ((prompt.length : Int) - ((tok prompt - contextSize : Nat) : Int) * 3
            < ((MinChunkSize : Nat) : Int))
        · rw [dif_pos h3]
          right
          simp
        · rw [dif_neg h3]
          have hcs : ((prompt.length : Int) - ((tok prompt - contextSize : Nat) : Int) * 3).toNat
              < prompt.length := by
            have hne : prompt.length ≠ 0 := fun hz => h0 (List.eq_nil_of_length_eq_zero hz)
            simp only [not_le] at h1
            simp only [not_lt] at h3
            simp only [MinChunkSize] at h3
            omega
          by_cases h4 : (splitTextFirst
              ((prompt.length : Int) - ((tok prompt - contextSize : Nat) : Int) * 3).toNat
              prompt).length = prompt.length
          · rw [if_pos h4]
            refine ih _ ?_ contextSize
            simp only [List.length_take]
            omega
          · rw [if_neg h4]
            refine ih _ ?_ contextSize
            have hb := boundaryFirstChunk_length splitterSeps
              ((prompt.length : Int) - ((tok prompt - contextSize : Nat) : Int) * 3).toNat prompt
            simp only [splitTextFirst] at h4 ⊢
            omega

theorem trimPrompt_noop (tok : Str → Nat) (t : Str) (b : Nat) (h : tok t ≤ b) :
    trimPrompt tok t b = t := by
  rw [trimPrompt]
  dsimp only
  by_cases h0 : t = []
  · rw [if_pos h0]; exact h0.symm
  · rw [if_neg h0, if_pos h]

theorem trimPrompt_small (tok : Str → Nat) (t : Str) (b : Nat)
    (h : t.length ≤ MinChunkSize) : trimPrompt tok t b = t := by
  rw [trimPrompt]
  dsimp only
  by_cases h0 : t = []
  · rw [if_pos h0]; exact h0.symm
  · rw [if_neg h0]
    by_cases h1 : tok t ≤ b
    · rw [if_pos h1]
    · rw [if_neg h1]
      have h3 : ((t.length : Int) - ((tok t - b : Nat) : Int) * 3
          < ((MinChunkSize : Nat) : Int)) := by
        simp only [not_le] at h1
        simp only [MinChunkSize] at h ⊢
        omega
      rw [dif_pos h3]
      exact List.take_of_length_le h

/-- **C2**: for every text, every token budget, and every token estimator,
the trimmed text either fits the budget or is no longer than the
140-character floor `MinChunkSize`. -/
theorem trimPrompt_budget_or_floor (tok : Str → Nat) (t : Str) (b : Nat) :
    tok (trimPrompt tok t b) ≤ b ∨ (trimPrompt tok t b).length ≤ MinChunkSize :=
  trimPrompt_spec tok t.length t (le_refl _) b

/-- **C8**: trimming is idempotent for budgets at or above the floor, and a
text already within budget is returned unchanged. -/
theorem trimPrompt_idempotent (tok : Str → Nat) (t : Str) (b : Nat)
    (hb : MinChunkSize ≤ b) :
    trimPrompt tok (trimPrompt tok t b) b = trimPrompt tok t b ∧
    (tok t ≤ b → trimPrompt tok t b = t) := by
  refine ⟨?_, trimPrompt_noop tok t b⟩
  rcases trimPrompt_spec tok t.length t (le_refl _) b with h | h
  · exact trimPrompt_noop tok _ b h
  · exact trimPrompt_small tok _ b h

theorem trimPrompt_idempotent_witness :
    MinChunkSize ≤ 200 ∧
    (trimPrompt List.length (trimPrompt List.length "hi".data 200) 200 =
        trimPrompt List.length "hi".data 200 ∧
      (List.length "hi".data ≤ 200 → trimPrompt List.length "hi".data 200 = "hi".data)) :=
  ⟨by decide, trimPrompt_idempotent List.length "hi".data 200 (by decide)⟩

/-- **C10**: `processSerpResult` returns the model's validated
`{learnings, followUpQuestions}` payload exactly as parsed: its result is
independent of the `numLearnings` and `numFollowUpQuestions` arguments
(which truncate or bound nothing), equals the raw `safeGenerate` result, and
can carry more learnings than the requested count. -/
theorem processSerpResult_no_truncation (env : Env) (query : Str)
    (result : List SearchItem) (n₁ n₂ m₁ m₂ : Nat) :
    processSerpResult env query result n₁ n₂ = processSerpResult env query result m₁ m₂ ∧
    (∀ r, processSerpResult env query result n₁ n₂ = .ok r →
      safeGenerate distillValidate env.complete env.systemPrompt
        (processSerpPrompt query
          ((compactStr (result.map (fun item => item.description))).map
            (fun content => trimPrompt env.tok content 25000))) = .ok r) ∧
    (∃ r, processSerpResult envFourLearnings "q".data [] 3 3 = .ok r ∧
      3 < r.learnings.length) := by
  refine ⟨rfl, fun r h => h, ?_⟩
  exact ⟨⟨["a".data, "b".data, "c".data, "d".data], []⟩, rfl, by simp⟩

theorem processSerpResult_no_truncation_witness :
    processSerpResult envFourLearnings "q".data [] 3 3 =
      processSerpResult envFourLearnings "q".data [] 5 5 ∧
    processSerpResult envFourLearnings "q".data [] 3 3 =
      .ok ⟨["a".data, "b".data, "c".data, "d".data], []⟩ := by
  have h := processSerpResult_no_truncation envFourLearnings "q".data [] 3 3 5 5
  exact ⟨h.1, rfl⟩

theorem stripControlChars_id {l : Str} (h : ∀ c ∈ l, isBadCtrl c = false) :
    stripControlChars l = l :=
  List.filter_eq_self.mpr (fun c hc => by simp [h c hc])

theorem stripTC_length : ∀ l : Str, (stripTrailingCommas l).length ≤ l.length := by
  intro l
  induction l with
  | nil => simp [stripTrailingCommas]
  | cons c r ih =>
    rw [stripTrailingCommas]
    by_cases h : c = ',' ∧ ((wsCloserSplit r).isSome : Prop)
    · rw [if_pos h]
      simp only [List.length_cons]
      omega
    · rw [if_neg h]
      simp only [List.length_cons]
      omega

theorem wsCloserSplit_comma_append : ∀ (a b : Str),
    (wsCloserSplit (a ++ ',' :: b)).isSome = true →
    (wsCloserSplit (a ++ b)).isSome = true := by
  intro a
  induction a with
  | nil =>
    intro b h
    have hcl : isCloser ',' = false := by decide
    have hws : isJsWs ',' = false := by decide
    simp [wsCloserSplit, hcl, hws] at h
  | cons d a' ih =>
    intro b h
    by_cases hd : isCloser d = true
    · simp [wsCloserSplit, hd]
    · by_cases hw : isJsWs d = true
      · simp only [List.cons_append, wsCloserSplit, hd, hw, if_true, if_false,
          Bool.false_eq_true, Option.isSome_map'] at h ⊢
        exact ih b h
      · simp [wsCloserSplit, hd, hw] at h

theorem stripTC_insert_comma : ∀ (a b : Str),
    stripTrailingCommas (a ++ b) = a ++ b →
    (wsCloserSplit b).isSome = true →
    stripTrailingCommas (a ++ ',' :: b) = a ++ b := by
  intro a
  induction a with
  | nil =>
    intro b hfix hsome
    rw [List.nil_append, stripTrailingCommas, if_pos ⟨rfl, hsome⟩]
    exact hfix
  | cons c a' ih =>
    intro b hfix hsome
    rw [List.cons_append] at hfix ⊢
    have hcond1 : ¬(c = ',' ∧ ((wsCloserSplit (a' ++ b)).isSome : Prop)) := by
      intro hcond
      rw [stripTrailingCommas, if_pos hcond] at hfix
      have h1 := stripTC_length (a' ++ b)
      have h2 := congrArg List.length hfix
      simp only [List.length_cons, List.length_append] at h1 h2
      omega
    rw [stripTrailingCommas, if_neg hcond1] at hfix
    injection hfix with hh htail
    have hcond2 : ¬(c = ',' ∧ ((wsCloserSplit (a' ++ ',' :: b)).isSome : Prop)) := by
      rintro ⟨rfl, hs⟩
      exact hcond1 ⟨rfl, wsCloserSplit_comma_append a' b hs⟩
    rw [stripTrailingCommas, if_neg hcond2, ih b htail hsome]
    simp

/-- **C3**: `safeGenerate`'s sanitize-parse-validate pipeline.  A candidate
that is valid JSON apart from an embedded control character, or apart from a
comma standing immediately (up to whitespace) before a closing brace or
bracket, still parses to the same value after sanitization; and when the
sanitized candidate fails to parse, or parses but fails schema validation,
`safeGenerate` returns (in one attempt, with no internal retry) the
`invalid json from model` error carrying the offending candidate text. -/
theorem safeGenerate_sanitize_or_error {α : Type} (validate : Json → Option α)
    (system prompt t s : Str) (v : Json) (c : Char)
    (hparse : parseJson s = some v)
    (hctrl : ∀ x ∈ s, isBadCtrl x = false)
    (hfix : stripTrailingCommas s = s)
    (hc : isBadCtrl c = true) :
    (∀ a b, s = a ++ b →
      parseJson (stripTrailingCommas (stripControlChars (a ++ c :: b))) = some v) ∧
    (∀ a b, s = a ++ b → (wsCloserSplit b).isSome = true →
      parseJson (stripTrailingCommas (stripControlChars (a ++ ',' :: b))) = some v) ∧
    (parseJson (stripTrailingCommas (stripControlChars (extractCandidate t))) = none →
      safeGenerate validate (fun _ _ => .ok (some t)) system prompt =
        .error (invalidJsonMsg (extractCandidate t))) ∧
    (∀ j, parseJson (stripTrailingCommas (stripControlChars (extractCandidate t))) = some j →
      validate j = none →
      safeGenerate validate (fun _ _ => .ok (some t)) system prompt =
        .error (invalidJsonMsg (extractCandidate t))) := by
  refine ⟨?_, ?_, ?_, ?_⟩
  · intro a b hsplit
    have ha : stripControlChars a = a :=
      stripControlChars_id (fun x hx => hctrl x (hsplit ▸ List.mem_append_left _ hx))
    have hb : stripControlChars b = b :=
      stripControlChars_id (fun x hx => hctrl x (hsplit ▸ List.mem_append_right _ hx))
    have : stripControlChars (a ++ c :: b) = a ++ b := by
      simp only [stripControlChars, List.filter_append, List.filter_cons, hc]
      simp only [stripControlChars] at ha hb
      rw [ha, hb]
      simp
    rw [this, ← hsplit, hfix]
    exact hparse
  · intro a b hsplit hsome
    have ha : stripControlChars a = a :=
      stripControlChars_id (fun x hx => hctrl x (hsplit ▸ List.mem_append_left _ hx))
    have hb : stripControlChars b = b :=
      stripControlChars_id (fun x hx => hctrl x (hsplit ▸ List.mem_append_right _ hx))
    have hcomma : stripControlChars (a ++ ',' :: b) = a ++ ',' :: b := by
      simp only [stripControlChars, List.filter_append, List.filter_cons]
      have : isBadCtrl ',' = false := by decide
      rw [this]
      simp only [stripControlChars] at ha hb
      rw [ha, hb]
      simp
    rw [hcomma, stripTC_insert_comma a b (by rw [← hsplit]; exact hfix) hsome, ← hsplit]
    exact hparse
  · intro hnone
    simp [safeGenerate, hnone]
  · intro j hsome hval
    simp [safeGenerate, hsome, hval]

theorem safeGenerate_sanitize_or_error_witness :
    parseJson (stripTrailingCommas (stripControlChars
      ("\x7b\"a\":[true".data ++ Char.ofNat 0 :: "]\x7d".data))) =
      some (.obj [("a".data, .arr [.bool true])]) ∧
    parseJson (stripTrailingCommas (stripControlChars
      ("\x7b\"a\":[true".data ++ ',' :: "]\x7d".data))) =
      some (.obj [("a".data, .arr [.bool true])]) ∧
    safeGenerate distillValidate (fun _ _ => .ok (some "not json at all".data)) [] [] =
      .error (invalidJsonMsg (extractCandidate "not json at all".data)) := by
  have h := safeGenerate_sanitize_or_error distillValidate [] [] "not json at all".data
    "\x7b\"a\":[true]\x7d".data (.obj [("a".data, .arr [.bool true])]) (Char.ofNat 0)
    rfl (by decide) (by decide) (by decide)
  refine ⟨h.1 "\x7b\"a\":[true".data "]\x7d".data (by decide), ?_, ?_⟩
  · exact h.2.1 "\x7b\"a\":[true".data "]\x7d".data (by decide) (by decide)
  · exact h.2.2.1 rfl

theorem toHexDigitCh_facts : ∀ k, k < 16 →
    isBadCtrl (toHexDigitCh k) = false ∧ ¬toHexDigitCh k = ',' ∧
    ¬toHexDigitCh k = backtickCh ∧ hexDigitVal (toHexDigitCh k) = some k := by
  decide

theorem escChar_head (c : Char) :
    (∃ t, escChar c = '\\' :: t) ∨ (escChar c = [c] ∧ ¬c.val < 0x20) := by
  simp only [escChar]
  split_ifs with h1 h2 h3 h4 h5 h6 h7 h8
  any_goals exact Or.inl ⟨_, rfl⟩
  exact Or.inr ⟨rfl, h8⟩

theorem char_toNat_lt_32 {c : Char} (h : c.val < 0x20) : c.toNat < 32 := by
  simp only [Char.toNat]
  rw [UInt32.lt_def] at h
  have := BitVec.lt_def.mp h
  simpa [UInt32.toNat] using this

theorem mem_escChar_ne_comma {c : Char} (hc : ¬c = ',') :
    ∀ x ∈ escChar c, ¬x = ',' := by
  intro x hx
  simp only [escChar] at hx
  split_ifs at hx with h1 h2 h3 h4 h5 h6 h7 h8
  case pos => simp at hx; rcases hx with rfl | rfl <;> decide
  case pos => simp at hx; subst hx; decide
  case pos => simp at hx; rcases hx with rfl | rfl <;> decide
  case pos => simp at hx; rcases hx with rfl | rfl <;> decide
  case pos => simp at hx; rcases hx with rfl | rfl <;> decide
  case pos => simp at hx; rcases hx with rfl | rfl <;> decide
  case pos => simp at hx; rcases hx with rfl | rfl <;> decide
  case pos =>
    have hb := char_toNat_lt_32 h8
    simp at hx
    rcases hx with rfl | rfl | rfl | rfl | rfl
    · decide
    · decide
    · decide
    · exact (toHexDigitCh_facts _ (by omega)).2.1
    · exact (toHexDigitCh_facts _ (Nat.mod_lt _ (by omega))).2.1
  case neg => simp at hx; subst hx; exact hc

theorem mem_escChar_not_ctrl {c : Char} (hdel : ¬c.val = 0x7F) :
    ∀ x ∈ escChar c, isBadCtrl x = false := by
  intro x hx
  simp only [escChar] at hx
  split_ifs at hx with h1 h2 h3 h4 h5 h6 h7 h8
  case pos => simp at hx; rcases hx with rfl | rfl <;> decide
  case pos => simp at hx; subst hx; decide
  case pos => simp at hx; rcases hx with rfl | rfl <;> decide
  case pos => simp at hx; rcases hx with rfl | rfl <;> decide
  case pos => simp at hx; rcases hx with rfl | rfl <;> decide
  case pos => simp at hx; rcases hx with rfl | rfl <;> decide
  case pos => simp at hx; rcases hx with rfl | rfl <;> decide
  case pos =>
    have hb := char_toNat_lt_32 h8
    simp at hx
    rcases hx with rfl | rfl | rfl | rfl | rfl
    · decide
    · decide
    · decide
    · exact (toHexDigitCh_facts _ (by omega)).1
    · exact (toHexDigitCh_facts _ (Nat.mod_lt _ (by omega))).1
  case neg =>
    simp at hx
    subst hx
    have e1 : decide (x.val < 0x20) = false := decide_eq_false h8
    have e2 : (x.val == 0x7F) = false := by
      rw [beq_eq_false_iff_ne]
      exact hdel
    simp [isBadCtrl, e1, e2]

theorem mem_escChar_ne_backtick {c : Char} (hbt : ¬c = backtickCh) :
    ∀ x ∈ escChar c, ¬x = backtickCh := by
  intro x hx
  simp only [escChar] at hx
  split_ifs at hx with h1 h2 h3 h4 h5 h6 h7 h8
  case pos => simp at hx; rcases hx with rfl | rfl <;> decide
  case pos => simp at hx; subst hx; decide
  case pos => simp at hx; rcases hx with rfl | rfl <;> decide
  case pos => simp at hx; rcases hx with rfl | rfl <;> decide
  case pos => simp at hx; rcases hx with rfl | rfl <;> decide
  case pos => simp at hx; rcases hx with rfl | rfl <;> decide
  case pos => simp at hx; rcases hx with rfl | rfl <;> decide
  case pos =>
    have hb := char_toNat_lt_32 h8
    simp at hx
    rcases hx with rfl | rfl | rfl | rfl | rfl
    · decide
    · decide
    · decide
    · exact (toHexDigitCh_facts _ (by omega)).2.2.1
    · exact (toHexDigitCh_facts _ (Nat.mod_lt _ (by omega))).2.2.1
  case neg => simp at hx; subst hx; exact hbt

theorem stripTC_cons_ne {c : Char} {l : Str} (h : ¬c = ',') :
    stripTrailingCommas (c :: l) = c :: stripTrailingCommas l := by
  rw [stripTrailingCommas, if_neg (fun hand => h hand.1)]

theorem stripTC_cons_comma {l : Str} (h : (wsCloserSplit l).isSome = false) :
    stripTrailingCommas (',' :: l) = ',' :: stripTrailingCommas l := by
  rw [stripTrailingCommas, if_neg (fun hand => by rw [hand.2] at h; exact Bool.noConfusion h)]

theorem stripTC_commaFree_append {pre : Str} (h : ∀ x ∈ pre, ¬x = ',') :
    ∀ l, stripTrailingCommas (pre ++ l) = pre ++ stripTrailingCommas l := by
  induction pre with
  | nil => intro l; rfl
  | cons c p ih =>
    intro l
    rw [List.cons_append, stripTC_cons_ne (h c (List.mem_cons_self c p)),
      ih (fun x hx => h x (List.mem_cons_of_mem c hx))]
    rfl

theorem wsCloserSplit_escContent : ∀ (u : Str) (r : Str),
    (wsCloserSplit (escContent u ++ '"' :: r)).isSome = true →
    wsHighCloserStart u = true := by
  intro u
  induction u with
  | nil =>
    intro r h
    have h1 : isCloser '"' = false := by decide
    have h2 : isJsWs '"' = false := by decide
    simp [escContent, wsCloserSplit, h1, h2] at h
  | cons c u' ih =>
    intro r h
    rcases escChar_head c with ⟨t, ht⟩ | ⟨hraw, hge⟩
    · have h1 : isCloser '\\' = false := by decide
      have h2 : isJsWs '\\' = false := by decide
      rw [show escContent (c :: u') = escChar c ++ escContent u' from rfl, ht] at h
      simp [wsCloserSplit, h1, h2] at h
    · rw [show escContent (c :: u') = escChar c ++ escContent u' from rfl, hraw] at h
      simp only [List.cons_append, List.nil_append] at h
      rw [wsHighCloserStart]
      by_cases hcl : isCloser c = true
      · rw [if_pos hcl]
      · rw [if_neg hcl]
        by_cases hws : isJsWs c = true
        · have hge2 : decide (0x20 ≤ c.val) = true := by
            rw [decide_eq_true_eq, UInt32.le_def]
            rw [UInt32.lt_def] at hge
            exact BitVec.not_lt.mp hge
          rw [if_pos (by rw [hws, hge2]; rfl)]
          rw [wsCloserSplit, if_neg hcl, if_pos hws, Option.isSome_map'] at h
          exact ih r h
        · rw [wsCloserSplit, if_neg hcl, if_neg hws] at h
          exact Bool.noConfusion h

theorem stripTC_escContent : ∀ (s : Str) (r : Str), hasCommaCloser s = false →
    stripTrailingCommas (escContent s ++ '"' :: r) =
      escContent s ++ '"' :: stripTrailingCommas r := by
  intro s
  induction s with
  | nil =>
    intro r hsafe
    simpa [escContent] using stripTC_cons_ne (by decide : ¬('"' = ','))
  | cons c s' ih =>
    intro r hsafe
    rw [hasCommaCloser, Bool.or_eq_false_iff] at hsafe
    obtain ⟨hhead, htail⟩ := hsafe
    rw [show escContent (c :: s') = escChar c ++ escContent s' from rfl]
    by_cases hc : c = ','
    · subst hc
      have hesc : escChar ',' = [','] := by decide
      rw [hesc]
      simp only [List.cons_append, List.nil_append, List.append_assoc]
      have hnot : wsHighCloserStart s' = false := by
        simp only [Bool.and_eq_false_iff] at hhead
        rcases hhead with hl | hr
        · exact absurd hl (by decide)
        · exact hr
      have hns : (wsCloserSplit (escContent s' ++ '"' :: r)).isSome = false := by
        rcases hsome : (wsCloserSplit (escContent s' ++ '"' :: r)).isSome with _ | _
        · rfl
        · exact absurd (wsCloserSplit_escContent s' r hsome) (by rw [hnot]; exact Bool.noConfusion)
      rw [stripTC_cons_comma hns, ih r htail]
    · rw [List.append_assoc, stripTC_commaFree_append (mem_escChar_ne_comma hc) _, ih r htail]
      exact (List.append_assoc _ _ _).symm

theorem renderElems_cons_head (s : Str) (ss : List Str) :
    ∃ t, renderElems (s :: ss) = '"' :: t := by
  cases ss with
  | nil => exact ⟨_, rfl⟩
  | cons s2 ss2 => exact ⟨_, rfl⟩

theorem stripTC_renderElems : ∀ (ss : List Str) (r : Str),
    (∀ s ∈ ss, hasCommaCloser s = false) →
    stripTrailingCommas (renderElems ss ++ r) = renderElems ss ++ stripTrailingCommas r := by
  intro ss
  induction ss with
  | nil =>
    intro r h
    simpa [renderElems] using stripTC_cons_ne (by decide : ¬(']' = ','))
  | cons s ss ih =>
    intro r h
    have hs : hasCommaCloser s = false := h s (List.mem_cons_self s ss)
    have hss : ∀ x ∈ ss, hasCommaCloser x = false :=
      fun x hx => h x (List.mem_cons_of_mem s hx)
    cases ss with
    | nil =>
      have hshape : ∀ (z : Str), renderElems [s] ++ z =
          '"' :: (escContent s ++ '"' :: ']' :: z) := by
        intro z
        simp [renderElems, renderStr, List.append_assoc]
      rw [hshape r, stripTC_cons_ne (by decide : ¬('"' = ',')), stripTC_escContent s _ hs,
        stripTC_cons_ne (by decide : ¬(']' = ',')), hshape (stripTrailingCommas r)]
    | cons s2 ss2 =>
      have hshape : ∀ (z : Str), renderElems (s :: s2 :: ss2) ++ z =
          '"' :: (escContent s ++ '"' :: ',' :: (renderElems (s2 :: ss2) ++ z)) := by
        intro z
        simp [renderElems, renderStr, List.append_assoc]
      rw [hshape r, stripTC_cons_ne (by decide : ¬('"' = ',')), stripTC_escContent s _ hs]
      obtain ⟨t, ht⟩ := renderElems_cons_head s2 ss2
      have hnone : (wsCloserSplit (renderElems (s2 :: ss2) ++ r)).isSome = false := by
        rw [ht]
        have h1 : isCloser '"' = false := by decide
        have h2 : isJsWs '"' = false := by decide
        simp [wsCloserSplit, h1, h2]
      rw [stripTC_cons_comma hnone, ih r hss, hshape (stripTrailingCommas r)]

/-- A superset of the fixed characters of a rendered distillation payload. -/
def skeletonChars : Str := "\x7b\x7d[]\",:learningsfollowUpQuestions".data

theorem mem_renderStr {x : Char} {s : Str} (hx : x ∈ renderStr s) :
    x = '"' ∨ x ∈ escContent s := by
  have h : x = '"' ∨ x ∈ escContent s ∨ x = '"' := by simpa [renderStr] using hx
  rcases h with rfl | he | rfl
  · exact Or.inl rfl
  · exact Or.inr he
  · exact Or.inl rfl

theorem mem_renderElems {x : Char} : ∀ {ss : List Str}, x ∈ renderElems ss →
    x = ']' ∨ x = ',' ∨ x = '"' ∨ ∃ s ∈ ss, x ∈ escContent s := by
  intro ss
  induction ss with
  | nil =>
    intro hx
    simp [renderElems] at hx
    exact Or.inl hx
  | cons s ss ih =>
    intro hx
    cases ss with
    | nil =>
      have h : x ∈ renderStr s ∨ x = ']' := by simpa [renderElems] using hx
      rcases h with hstr | rfl
      · rcases mem_renderStr hstr with rfl | he
        · exact Or.inr (Or.inr (Or.inl rfl))
        · exact Or.inr (Or.inr (Or.inr ⟨s, List.mem_cons_self s [], he⟩))
      · exact Or.inl rfl
    | cons s2 ss2 =>
      have h : x ∈ renderStr s ∨ x = ',' ∨ x ∈ renderElems (s2 :: ss2) := by
        simpa [renderElems] using hx
      rcases h with hstr | rfl | hmem
      · rcases mem_renderStr hstr with rfl | he
        · exact Or.inr (Or.inr (Or.inl rfl))
        · exact Or.inr (Or.inr (Or.inr ⟨s, List.mem_cons_self s _, he⟩))
      · exact Or.inr (Or.inl rfl)
      · rcases ih hmem with h1 | h2 | h3 | ⟨s', hs', he'⟩
        · exact Or.inl h1
        · exact Or.inr (Or.inl h2)
        · exact Or.inr (Or.inr (Or.inl h3))
        · exact Or.inr (Or.inr (Or.inr ⟨s', List.mem_cons_of_mem s hs', he'⟩))

theorem mem_renderArr {x : Char} {ss : List Str} (hx : x ∈ renderArr ss) :
    x = '[' ∨ x = ']' ∨ x = ',' ∨ x = '"' ∨ ∃ s ∈ ss, x ∈ escContent s := by
  rcases List.mem_cons.mp (by simpa [renderArr] using hx) with rfl | hmem
  · exact Or.inl rfl
  · exact Or.inr (mem_renderElems hmem)

theorem mem_renderDistill {x : Char} {ls fs : List Str}
    (hx : x ∈ renderDistill ls fs) :
    x ∈ skeletonChars ∨ ∃ s ∈ ls ++ fs, x ∈ escContent s := by
  have hk1 : ∀ c ∈ "\x7b\"learnings\":".data, c ∈ skeletonChars := by decide
  have hk2 : ∀ c ∈ ",\"followUpQuestions\":".data, c ∈ skeletonChars := by decide
  have hsk : '[' ∈ skeletonChars ∧ ']' ∈ skeletonChars ∧ ',' ∈ skeletonChars ∧
      '"' ∈ skeletonChars ∧ Char.ofNat 0x7D ∈ skeletonChars := by decide
  have harr : ∀ (ss : List Str) (sub : List Str), (∀ s ∈ ss, s ∈ sub) →
      x ∈ renderArr ss → x ∈ skeletonChars ∨ ∃ s ∈ sub, x ∈ escContent s := by
    intro ss sub hsub hmem
    rcases mem_renderArr hmem with rfl | rfl | rfl | rfl | ⟨s, hs, he⟩
    · exact Or.inl hsk.1
    · exact Or.inl hsk.2.1
    · exact Or.inl hsk.2.2.1
    · exact Or.inl hsk.2.2.2.1
    · exact Or.inr ⟨s, hsub s hs, he⟩
  rw [renderDistill] at hx
  rcases List.mem_append.mp hx with hx4 | h5
  · rcases List.mem_append.mp hx4 with hx3 | h4
    · rcases List.mem_append.mp hx3 with hx2 | h3
      · rcases List.mem_append.mp hx2 with h1 | h2
        · exact Or.inl (hk1 x h1)
        · exact harr ls (ls ++ fs) (fun s hs => List.mem_append_left fs hs) h2
      · exact Or.inl (hk2 x h3)
    · exact harr fs (ls ++ fs) (fun s hs => List.mem_append_right ls hs) h4
  · rcases List.mem_singleton.mp h5 with rfl
    exact Or.inl hsk.2.2.2.2

theorem stripCtrl_renderDistill (ls fs : List Str)
    (h : ∀ s ∈ ls ++ fs, ∀ c ∈ s, ¬c.val = 0x7F) :
    stripControlChars (renderDistill ls fs) = renderDistill ls fs := by
  apply stripControlChars_id
  intro x hx
  rcases mem_renderDistill hx with hsk | ⟨s, hs, he⟩
  · have hall : ∀ y ∈ skeletonChars, isBadCtrl y = false := by decide
    exact hall x hsk
  · rcases List.mem_flatMap.mp (by simpa [escContent] using he) with ⟨c, hc, hcx⟩
    exact mem_escChar_not_ctrl (h s hs c hc) x hcx

theorem renderDistill_no_backtick (ls fs : List Str)
    (h : ∀ s ∈ ls ++ fs, ∀ c ∈ s, ¬c = backtickCh) :
    ∀ x ∈ renderDistill ls fs, ¬x = backtickCh := by
  intro x hx
  rcases mem_renderDistill hx with hsk | ⟨s, hs, he⟩
  · have hall : ∀ y ∈ skeletonChars, ¬y = backtickCh := by decide
    exact hall x hsk
  · rcases List.mem_flatMap.mp (by simpa [escContent] using he) with ⟨c, hc, hcx⟩
    exact mem_escChar_ne_backtick (h s hs c hc) x hcx

theorem renderDistill_shape (ls fs : List Str) :
    renderDistill ls fs =
      "\x7b\"learnings\":".data ++ ('[' :: (renderElems ls ++ (',' ::
        ("\"followUpQuestions\":".data ++ ('[' :: (renderElems fs ++ [Char.ofNat 0x7D])))))) := by
  have hk2split : (",\"followUpQuestions\":".data : Str) =
      ',' :: "\"followUpQuestions\":".data := rfl
  rw [renderDistill, hk2split]
  simp [renderArr, List.append_assoc]

theorem stripTC_renderDistill (ls fs : List Str)
    (h : ∀ s ∈ ls ++ fs, hasCommaCloser s = false) :
    stripTrailingCommas (renderDistill ls fs) = renderDistill ls fs := by
  have hls : ∀ s ∈ ls, hasCommaCloser s = false :=
    fun s hs => h s (List.mem_append_left _ hs)
  have hfs : ∀ s ∈ fs, hasCommaCloser s = false :=
    fun s hs => h s (List.mem_append_right _ hs)
  have hk1c : ∀ x ∈ ("\x7b\"learnings\":".data : Str), ¬x = ',' := by decide
  have hk2c : ∀ x ∈ ("\"followUpQuestions\":".data : Str), ¬x = ',' := by decide
  have hws : (wsCloserSplit ("\"followUpQuestions\":".data ++
      ('[' :: (renderElems fs ++ [Char.ofNat 0x7D])))).isSome = false := rfl
  rw [renderDistill_shape ls fs, stripTC_commaFree_append hk1c,
    stripTC_cons_ne (by decide : ¬('[' = ',')), stripTC_renderElems ls _ hls,
    stripTC_cons_comma hws, stripTC_commaFree_append hk2c,
    stripTC_cons_ne (by decide : ¬('[' = ',')), stripTC_renderElems fs _ hfs,
    stripTC_cons_ne (by decide : ¬(Char.ofNat 0x7D = ','))]
  rfl

theorem toNat_ofNat_lower {n : Nat} (h1 : 97 ≤ n) (h2 : n ≤ 122) :
    (Char.ofNat n).toNat = n := by
  have hv : n.isValidChar := Or.inl (by omega)
  rw [Char.ofNat, dif_pos hv]
  simp [Char.ofNatAux, Char.toNat, UInt32.toNat, UInt32.ofNat', BitVec.toNat_ofNat]

theorem toLower_eq_backtick {c : Char} (h : Char.toLower c = backtickCh) :
    c = backtickCh := by
  unfold Char.toLower at h
  dsimp only at h
  split at h
  · exfalso
    rename_i hr
    have hval := congrArg Char.toNat h
    rw [toNat_ofNat_lower (by omega) (by omega)] at hval
    have hbt : backtickCh.toNat = 96 := by decide
    omega
  · exact h

theorem lowerPrefix_head_backtick {c : Char} {ps l : Str}
    (h : lowerPrefix (backtickCh :: ps) (c :: l) = true) :
    c = backtickCh ∧ lowerPrefix ps l = true := by
  rw [lowerPrefix, Bool.and_eq_true] at h
  exact ⟨toLower_eq_backtick (eq_of_beq h.1).symm, h.2⟩

theorem dropAfterOpen_fenced : ∀ (pre rest : Str),
    containsSeq fenceClose pre = false →
    dropAfterOpen (pre ++ (fenceOpen ++ rest)) = some rest := by
  intro pre
  induction pre with
  | nil => intro rest h; rfl
  | cons c pre' ih =>
    intro rest h
    rw [containsSeq, Bool.or_eq_false_iff] at h
    rw [List.cons_append, dropAfterOpen]
    have hfalse : lowerPrefix fenceOpen (c :: (pre' ++ (fenceOpen ++ rest))) = false := by
      cases hlp : lowerPrefix fenceOpen (c :: (pre' ++ (fenceOpen ++ rest))) with
      | false => rfl
      | true =>
        exfalso
        rw [show fenceOpen = backtickCh :: backtickCh :: backtickCh :: "json".data from rfl]
          at hlp
        obtain ⟨rfl, hlp1⟩ := lowerPrefix_head_backtick hlp
        match pre', h with
        | [], h =>
          exact Bool.noConfusion (show (false : Bool) = true from hlp1)
        | [p1], h =>
          obtain ⟨rfl, hlp2⟩ := lowerPrefix_head_backtick hlp1
          exact Bool.noConfusion (show (false : Bool) = true from hlp2)
        | p1 :: p2 :: pre'', h =>
          obtain ⟨rfl, hlp2⟩ := lowerPrefix_head_backtick hlp1
          obtain ⟨rfl, hlp3⟩ := lowerPrefix_head_backtick hlp2
          have h1 := h.1
          rw [show fenceClose = [backtickCh, backtickCh, backtickCh] from rfl] at h1
          simp [List.isPrefixOf] at h1
    rw [hfalse]
    simp only [Bool.false_eq_true, if_false]
    exact ih rest h.2

theorem breakAtClose_fenced : ∀ (inner post : Str),
    (∀ c ∈ inner, ¬c = backtickCh) →
    breakAtClose (inner ++ (fenceClose ++ post)) = some (inner, post) := by
  intro inner
  induction inner with
  | nil => intro post h; rfl
  | cons c inner' ih =>
    intro post h
    rw [List.cons_append, breakAtClose]
    have hfalse : lowerPrefix fenceClose (c :: (inner' ++ (fenceClose ++ post))) = false := by
      cases hlp : lowerPrefix fenceClose (c :: (inner' ++ (fenceClose ++ post))) with
      | false => rfl
      | true =>
        exfalso
        rw [show fenceClose = backtickCh :: backtickCh :: backtickCh :: [] from rfl] at hlp
        obtain ⟨rfl, hlp1⟩ := lowerPrefix_head_backtick hlp
        exact h _ (List.mem_cons_self _ _) rfl
    rw [hfalse]
    simp only [Bool.false_eq_true, if_false]
    rw [ih post (fun x hx => h x (List.mem_cons_of_mem c hx))]
    rfl

theorem jsTrim_payload (p : Str) (t1 : Str) (h1 : p = Char.ofNat 0x7B :: t1)
    (i : Str) (h2 : p = i ++ [Char.ofNat 0x7D]) :
    jsTrim ('\n' :: (p ++ ['\n'])) = p := by
  rw [jsTrim]
  have hd : List.dropWhile isJsWs ('\n' :: (p ++ ['\n'])) = p ++ ['\n'] := by
    rw [List.dropWhile_cons_of_pos (by decide), h1, List.cons_append,
      List.dropWhile_cons_of_neg (by decide), ← List.cons_append, ← h1]
  rw [hd]
  have hrev : (p ++ ['\n']).reverse = '\n' :: p.reverse := by
    simp
  rw [hrev, List.dropWhile_cons_of_pos (by decide), h2, List.reverse_append]
  simp only [List.reverse_singleton, List.singleton_append]
  rw [List.dropWhile_cons_of_neg (by decide)]
  simp

theorem renderDistill_head (ls fs : List Str) :
    ∃ t, renderDistill ls fs = Char.ofNat 0x7B :: t := ⟨_, rfl⟩

theorem renderDistill_last (ls fs : List Str) :
    ∃ i, renderDistill ls fs = i ++ [Char.ofNat 0x7D] := ⟨_, rfl⟩

theorem extractCandidate_fenced (pre post payload : Str)
    (hpre : containsSeq fenceClose pre = false)
    (hbt : ∀ c ∈ payload, ¬c = backtickCh)
    (hhead : ∃ t, payload = Char.ofNat 0x7B :: t)
    (hlast : ∃ i, payload = i ++ [Char.ofNat 0x7D]) :
    extractCandidate
      (pre ++ (fenceOpen ++ ('\n' :: (payload ++ ('\n' :: (fenceClose ++ post)))))) =
      payload := by
  obtain ⟨t1, ht1⟩ := hhead
  obtain ⟨i, hi⟩ := hlast
  have hdrop := dropAfterOpen_fenced pre
    ('\n' :: (payload ++ ('\n' :: (fenceClose ++ post)))) hpre
  have hbtin : ∀ c ∈ '\n' :: (payload ++ ['\n']), ¬c = backtickCh := by
    intro x hx
    rcases List.mem_cons.mp hx with rfl | hx2
    · decide
    · rcases List.mem_append.mp hx2 with hp | hn
      · exact hbt x hp
      · rcases List.mem_singleton.mp hn with rfl
        decide
  have hbreak : breakAtClose ('\n' :: (payload ++ ('\n' :: (fenceClose ++ post)))) =
      some ('\n' :: (payload ++ ['\n']), post) := by
    have h2 := breakAtClose_fenced ('\n' :: (payload ++ ['\n'])) post hbtin
    have hsh : ('\n' :: (payload ++ ['\n'])) ++ (fenceClose ++ post) =
        '\n' :: (payload ++ ('\n' :: (fenceClose ++ post))) := by
      simp
    rw [hsh] at h2
    exact h2
  have hjt : jsTrim ('\n' :: (payload ++ ['\n'])) = payload :=
    jsTrim_payload payload t1 ht1 i hi
  have hne : ¬(payload = []) := by
    rw [ht1]
    exact List.cons_ne_nil _ _
  simp only [extractCandidate, hdrop, hbreak, hjt, hne, if_false]

theorem pStr_escChar (c : Char) (rest : Str) (f : Nat) :
    pStr (f + 1) (escChar c ++ rest) =
      (pStr f rest).map (fun p => (c :: p.1, p.2)) := by
  rw [escChar]
  split_ifs with h1 h2 h3 h4 h5 h6 h7 h8
  · subst h1; rfl
  · subst h2; rfl
  · subst h3; rfl
  · subst h4; rfl
  · subst h5; rfl
  · subst h6; rfl
  · subst h7; rfl
  · have hlt := char_toNat_lt_32 h8
    have h32 : c.toNat = 0 ∨ c.toNat = 1 ∨ c.toNat = 2 ∨ c.toNat = 3 ∨ c.toNat = 4 ∨
        c.toNat = 5 ∨ c.toNat = 6 ∨ c.toNat = 7 ∨ c.toNat = 8 ∨ c.toNat = 9 ∨
        c.toNat = 10 ∨ c.toNat = 11 ∨ c.toNat = 12 ∨ c.toNat = 13 ∨ c.toNat = 14 ∨
        c.toNat = 15 ∨ c.toNat = 16 ∨ c.toNat = 17 ∨ c.toNat = 18 ∨ c.toNat = 19 ∨
        c.toNat = 20 ∨ c.toNat = 21 ∨ c.toNat = 22 ∨ c.toNat = 23 ∨ c.toNat = 24 ∨
        c.toNat = 25 ∨ c.toNat = 26 ∨ c.toNat = 27 ∨ c.toNat = 28 ∨ c.toNat = 29 ∨
        c.toNat = 30 ∨ c.toNat = 31 := by omega
    rcases h32 with h|h|h|h|h|h|h|h|h|h|h|h|h|h|h|h|h|h|h|h|h|h|h|h|h|h|h|h|h|h|h|h <;>
      (have hc : c = Char.ofNat c.toNat := (Char.ofNat_toNat c).symm
       rw [h] at hc
       subst hc
       first
         | rfl
         | exact absurd rfl h3
         | exact absurd rfl h4
         | exact absurd rfl h5
         | exact absurd rfl h6
         | exact absurd rfl h7)
  · show pStr (f + 1) (c :: rest) = _
    rw [show pStr (f + 1) (c :: rest) = pStrBody (pStr f) c rest from rfl,
      pStrBody.eq_def, if_neg h1, if_neg h2, if_neg h8]

theorem pStr_escContent : ∀ (s r : Str) (f : Nat), s.length + 1 ≤ f →
    pStr f (escContent s ++ '"' :: r) = some (s, r) := by
  intro s
  induction s with
  | nil =>
    intro r f hf
    cases f with
    | zero => omega
    | succ f2 => rfl
  | cons c s2 ih =>
    intro r f hf
    cases f with
    | zero => omega
    | succ f2 =>
      rw [show escContent (c :: s2) = escChar c ++ escContent s2 from rfl,
        List.append_assoc, pStr_escChar, ih r f2 (by
          simp only [List.length_cons] at hf
          omega)]
      rfl

theorem pVal_renderStr (s t : Str) : ∀ f, s.length + 2 ≤ f →
    pVal f (renderStr s ++ t) = some (Json.str s, t) := by
  intro f hf
  cases f with
  | zero => omega
  | succ f2 =>
    have hshape : renderStr s ++ t = '"' :: (escContent s ++ '"' :: t) := by
      simp [renderStr]
    have hstep : pVal (f2 + 1) ('"' :: (escContent s ++ '"' :: t)) =
        (pStr f2 (escContent s ++ '"' :: t)).map (fun p => (Json.str p.1, p.2)) := rfl
    rw [hshape, hstep, pStr_escContent s _ f2 (by omega)]
    rfl


theorem escContent_length (s : Str) : s.length ≤ (escContent s).length := by
  induction s with
  | nil => simp [escContent]
  | cons c s2 ih =>
    have h1 : 1 ≤ (escChar c).length := by
      rw [escChar]
      split_ifs <;> simp
    rw [show escContent (c :: s2) = escChar c ++ escContent s2 from rfl]
    simp only [List.length_append, List.length_cons]
    omega

theorem pElems_renderElems : ∀ (ss : List Str), ss ≠ [] → ∀ (f : Nat) (r : Str),
    (renderElems ss).length + 1 ≤ f →
    pElems f (renderElems ss ++ r) = some (ss.map Json.str, r) := by
  intro ss
  induction ss with
  | nil => intro h; exact absurd rfl h
  | cons s ss2 ih =>
    intro _ f r hf
    cases f with
    | zero => omega
    | succ f2 =>
      have hesc := escContent_length s
      cases ss2 with
      | nil =>
        have hlen : (renderElems [s]).length = (escContent s).length + 3 := by
          simp [renderElems, renderStr]
        have hshape : renderElems [s] ++ r = renderStr s ++ (']' :: r) := by
          simp [renderElems]
        rw [hshape]
        show (match pVal f2 (renderStr s ++ (']' :: r)) with
            | none => none
            | some (v, r1) =>
              match skipJsonWs r1 with
              | ',' :: r2 =>
                (match pElems f2 r2 with
                 | some (vs, r3) => some (v :: vs, r3)
                 | none => none)
              | ']' :: r2 => some ([v], r2)
              | _ => none) = some ([s].map Json.str, r)
        rw [pVal_renderStr s (']' :: r) f2 (by omega)]
        rfl
      | cons s2 ss3 =>
        have hlen : (renderElems (s :: s2 :: ss3)).length =
            (escContent s).length + 3 + (renderElems (s2 :: ss3)).length := by
          simp [renderElems, renderStr]
          omega
        have hshape : renderElems (s :: s2 :: ss3) ++ r =
            renderStr s ++ (',' :: (renderElems (s2 :: ss3) ++ r)) := by
          simp [renderElems]
        have hrec := ih (List.cons_ne_nil s2 ss3) f2 r (by omega)
        rw [hshape]
        show (match pVal f2 (renderStr s ++ (',' :: (renderElems (s2 :: ss3) ++ r))) with
            | none => none
            | some (v, r1) =>
              match skipJsonWs r1 with
              | ',' :: r2 =>
                (match pElems f2 r2 with
                 | some (vs, r3) => some (v :: vs, r3)
                 | none => none)
              | ']' :: r2 => some ([v], r2)
              | _ => none) = some ((s :: s2 :: ss3).map Json.str, r)
        rw [pVal_renderStr s _ f2 (by omega)]
        show (match pElems f2 (renderElems (s2 :: ss3) ++ r) with
            | some (vs, r3) => some (Json.str s :: vs, r3)
            | none => none) = some ((s :: s2 :: ss3).map Json.str, r)
        rw [hrec]
        rfl

theorem pVal_renderArr (ss : List Str) (t : Str) : ∀ f,
    (renderArr ss).length + 1 ≤ f →
    pVal f (renderArr ss ++ t) = some (Json.arr (ss.map Json.str), t) := by
  intro f hf
  cases f with
  | zero => omega
  | succ f2 =>
    cases ss with
    | nil => rfl
    | cons s ss2 =>
      obtain ⟨t0, ht0⟩ := renderElems_cons_head s ss2
      have hlen : (renderArr (s :: ss2)).length = (renderElems (s :: ss2)).length + 1 := by
        simp [renderArr]
      have hpe := pElems_renderElems (s :: ss2) (List.cons_ne_nil s ss2) f2 t (by omega)
      have hshape : renderArr (s :: ss2) ++ t = '[' :: (renderElems (s :: ss2) ++ t) := by
        simp [renderArr]
      rw [hshape, ht0]
      rw [ht0] at hpe
      show (pElems f2 (('"' :: t0) ++ t)).map (fun p => (Json.arr p.1, p.2)) =
        some (Json.arr ((s :: ss2).map Json.str), t)
      rw [hpe]
      rfl

theorem pMembers_step (fuel : Nat) (k A : Str) (v : Json) (rem : Str)
    (hkf : k.length + 1 ≤ fuel)
    (hv : pVal fuel A = some (v, rem)) :
    pMembers (fuel + 1) ('"' :: (escContent k ++ '"' :: (':' :: A))) =
      match skipJsonWs rem with
      | ',' :: r4 =>
        (match pMembers fuel r4 with
         | some (ms, r5) => some ((k, v) :: ms, r5)
         | none => none)
      | '}' :: r4 => some ([(k, v)], r4)
      | _ => none := by
  show (match pStr fuel (escContent k ++ '"' :: (':' :: A)) with
      | none => none
      | some (k1, r1) =>
        match skipJsonWs r1 with
        | ':' :: r2 =>
          (match pVal fuel r2 with
           | none => none
           | some (v1, r3) =>
             match skipJsonWs r3 with
             | ',' :: r4 =>
               (match pMembers fuel r4 with
                | some (ms, r5) => some ((k1, v1) :: ms, r5)
                | none => none)
             | '}' :: r4 => some ([(k1, v1)], r4)
             | _ => none)
        | _ => none) = _
  rw [pStr_escContent k (':' :: A) fuel hkf]
  show (match pVal fuel A with
      | none => none
      | some (v1, r3) =>
        match skipJsonWs r3 with
        | ',' :: r4 =>
          (match pMembers fuel r4 with
           | some (ms, r5) => some ((k, v1) :: ms, r5)
           | none => none)
        | '}' :: r4 => some ([(k, v1)], r4)
        | _ => none) = _
  rw [hv]


theorem renderDistill_parse_shape (ls fs : List Str) (post : Str) :
    renderDistill ls fs ++ post =
      Char.ofNat 0x7B :: ('"' :: ("learnings".data ++ ('"' :: (':' ::
        (renderArr ls ++ (',' :: ('"' :: ("followUpQuestions".data ++ ('"' :: (':' ::
        (renderArr fs ++ (Char.ofNat 0x7D :: post)))))))))))) := by
  have e1 : ("\x7b\"learnings\":".data : Str) =
      Char.ofNat 0x7B :: ('"' :: ("learnings".data ++ ['"', ':'])) := rfl
  have e2 : ((",\"followUpQuestions\":".data : Str)) =
      ',' :: ('"' :: ("followUpQuestions".data ++ ['"', ':'])) := rfl
  rw [renderDistill, e1, e2]
  simp [List.append_assoc]

theorem pVal_renderDistill (ls fs : List Str) (post : Str) : ∀ f,
    (renderDistill ls fs).length + 1 ≤ f →
    pVal f (renderDistill ls fs ++ post) = some (distillJson ls fs, post) := by
  intro f hf
  have e1 : ("\x7b\"learnings\":".data : Str).length = 13 := rfl
  have e2 : ((",\"followUpQuestions\":".data : Str)).length = 21 := rfl
  have e3 : ("followUpQuestions".data : Str).length = 17 := rfl
  have e4 : ("learnings".data : Str).length = 9 := rfl
  have hlen : (renderDistill ls fs).length =
      (renderElems ls).length + (renderElems fs).length + 37 := by
    rw [renderDistill]
    simp only [renderArr, List.length_append, List.length_cons, e1, e2,
      List.length_singleton, List.length_nil]
    omega
  obtain ⟨g1, rfl⟩ : ∃ g1, f = g1 + 3 := ⟨f - 3, by omega⟩
  have hb1 : (renderArr ls).length + 1 ≤ g1 + 1 := by
    simp only [renderArr, List.length_cons]
    omega
  have hb2 : (renderArr fs).length + 1 ≤ g1 := by
    simp only [renderArr, List.length_cons]
    omega
  have hpv2 := pVal_renderArr fs (Char.ofNat 0x7D :: post) g1 hb2
  have hpv1 := pVal_renderArr ls (',' :: ('"' :: ("followUpQuestions".data ++ ('"' :: (':' ::
      (renderArr fs ++ (Char.ofNat 0x7D :: post))))))) (g1 + 1) hb1
  have hm2 : pMembers (g1 + 1) ('"' :: ("followUpQuestions".data ++ ('"' :: (':' ::
      (renderArr fs ++ (Char.ofNat 0x7D :: post)))))) =
      some ([("followUpQuestions".data, Json.arr (fs.map Json.str))], post) := by
    have h2 := pMembers_step g1 "followUpQuestions".data
      (renderArr fs ++ (Char.ofNat 0x7D :: post)) (Json.arr (fs.map Json.str))
      (Char.ofNat 0x7D :: post) (by omega) hpv2
    exact h2.trans (by rfl)
  have hm1 : pMembers (g1 + 2) ('"' :: ("learnings".data ++ ('"' :: (':' ::
      (renderArr ls ++ (',' :: ('"' :: ("followUpQuestions".data ++ ('"' :: (':' ::
        (renderArr fs ++ (Char.ofNat 0x7D :: post)))))))))))) =
      some ([("learnings".data, Json.arr (ls.map Json.str)),
             ("followUpQuestions".data, Json.arr (fs.map Json.str))], post) := by
    have h1 := pMembers_step (g1 + 1) "learnings".data
      (renderArr ls ++ (',' :: ('"' :: ("followUpQuestions".data ++ ('"' :: (':' ::
        (renderArr fs ++ (Char.ofNat 0x7D :: post))))))))
      (Json.arr (ls.map Json.str))
      (',' :: ('"' :: ("followUpQuestions".data ++ ('"' :: (':' ::
        (renderArr fs ++ (Char.ofNat 0x7D :: post))))))) (by omega) hpv1
    refine h1.trans ?_
    show (match pMembers (g1 + 1) ('"' :: ("followUpQuestions".data ++ ('"' :: (':' ::
        (renderArr fs ++ (Char.ofNat 0x7D :: post)))))) with
        | some (ms, r5) => some (("learnings".data, Json.arr (ls.map Json.str)) :: ms, r5)
        | none => none) = _
    rw [hm2]
  rw [renderDistill_parse_shape ls fs post]
  show (pMembers (g1 + 2) ('"' :: ("learnings".data ++ ('"' :: (':' ::
      (renderArr ls ++ (',' :: ('"' :: ("followUpQuestions".data ++ ('"' :: (':' ::
        (renderArr fs ++ (Char.ofNat 0x7D :: post))))))))))))).map
      (fun p => (Json.obj p.1, p.2)) = some (distillJson ls fs, post)
  rw [hm1]
  rfl

theorem parseJson_renderDistill (ls fs : List Str) :
    parseJson (renderDistill ls fs) = some (distillJson ls fs) := by
  rw [parseJson]
  have hpv := pVal_renderDistill ls fs [] ((renderDistill ls fs).length + 1)
    (Nat.le_refl _)
  rw [List.append_nil] at hpv
  rw [hpv]
  rfl

theorem mapM_asString_loop : ∀ (ls : List Str) (acc : List Str),
    List.mapM.loop asString (ls.map Json.str) acc = some (acc.reverse ++ ls) := by
  intro ls
  induction ls with
  | nil => intro acc; simp [List.mapM.loop]
  | cons s ls2 ih =>
    intro acc
    simp [List.mapM.loop, asString, ih]

theorem mapM_asString_map (ls : List Str) :
    (ls.map Json.str).mapM asString = some ls := by
  show List.mapM.loop asString (ls.map Json.str) [] = some ls
  simpa using mapM_asString_loop ls []

theorem distillValidate_distillJson (ls fs : List Str) :
    distillValidate (distillJson ls fs) = some ⟨ls, fs⟩ := by
  show (match (ls.map Json.str).mapM asString with
      | some ls2 =>
        (match (fs.map Json.str).mapM asString with
         | some fs2 => some (⟨ls2, fs2⟩ : DistillRes)
         | none => none)
      | none => none) = some (⟨ls, fs⟩ : DistillRes)
  rw [mapM_asString_map ls]
  show (match (fs.map Json.str).mapM asString with
      | some fs2 => some (⟨ls, fs2⟩ : DistillRes)
      | none => none) = some (⟨ls, fs⟩ : DistillRes)
  rw [mapM_asString_map fs]


/-- **C9**: the extraction round trip, in its corrected form.  A distillation
value rendered by `JSON.stringify` inside a fenced ```json block is recovered
exactly by `safeGenerate`'s locate-sanitize-parse-validate pipeline, provided
the text before the fence contains no triple-backtick run and every embedded
string is round-trip safe: free of backticks, of the delete character
`U+007F`, and of commas standing (up to whitespace) before a closing brace or
bracket.  The unrestricted claim, for arbitrary values and arbitrary
surrounding text, is refuted by `safeGenerate_roundtrip_cex`. -/
theorem safeGenerate_roundtrip (ls fs : List Str) (pre post system prompt : Str)
    (hpre : containsSeq fenceClose pre = false)
    (hsafe : ∀ s ∈ ls ++ fs, roundTripSafe s) :
    safeGenerate distillValidate
      (fun _ _ => Except.ok (some (pre ++ (fenceOpen ++ ('\n' ::
        (renderDistill ls fs ++ ('\n' :: (fenceClose ++ post))))))))
      system prompt = .ok ⟨ls, fs⟩ := by
  have hbt : ∀ c ∈ renderDistill ls fs, ¬c = backtickCh :=
    renderDistill_no_backtick ls fs (fun s hs c hc => ((hsafe s hs).1 c hc).1)
  have hctrl : stripControlChars (renderDistill ls fs) = renderDistill ls fs :=
    stripCtrl_renderDistill ls fs (fun s hs c hc => ((hsafe s hs).1 c hc).2)
  have htc := stripTC_renderDistill ls fs (fun s hs => (hsafe s hs).2)
  have hex := extractCandidate_fenced pre post (renderDistill ls fs) hpre hbt
    (renderDistill_head ls fs) (renderDistill_last ls fs)
  simp only [safeGenerate, Option.getD_some, hex, hctrl, htc,
    parseJson_renderDistill, distillValidate_distillJson]

/-- Witness for C9: a concrete payload in a fenced block with benign
surrounding text is recovered exactly. -/
theorem safeGenerate_roundtrip_witness :
    containsSeq fenceClose "Sure: ".data = false ∧
    (∀ s ∈ ["alpha".data] ++ ["beta".data], roundTripSafe s) ∧
    safeGenerate distillValidate
      (fun _ _ => Except.ok (some ("Sure: ".data ++ (fenceOpen ++ ('\n' ::
        (renderDistill ["alpha".data] ["beta".data] ++ ('\n' ::
          (fenceClose ++ " ok".data))))))))
      [] [] = .ok ⟨["alpha".data], ["beta".data]⟩ :=
  ⟨by decide, by decide,
    safeGenerate_roundtrip ["alpha".data] ["beta".data] "Sure: ".data " ok".data
      [] [] (by decide) (by decide)⟩

/-- Counterexample to C9 as stated: the surrounding text is not arbitrary.  A
fence-like run in the text before the payload's fence hijacks extraction (the
pipeline takes the first case-insensitive ```json block), so a conforming
value embedded as fenced JSON is not recovered and `safeGenerate` returns the
`invalid json from model` error instead. -/
theorem safeGenerate_roundtrip_cex :
    safeGenerate distillValidate
      (fun _ _ => Except.ok (some ("```json\ntrue\n```\nUse: ".data ++
        (fenceOpen ++ ('\n' :: (renderDistill ["a".data] [] ++
          ('\n' :: (fenceClose ++ []))))))))
      [] [] = .error (invalidJsonMsg "true".data) ∧
    (Except.error (invalidJsonMsg "true".data) : Except Str DistillRes) ≠
      .ok ⟨["a".data], []⟩ :=
  ⟨rfl, fun h => Except.noConfusion h⟩

end DeepResearch
